import Mathlib

/-!
Verification development for the Stego-n-Crypto backend.

The Python sources are shallowly embedded as follows: text-file contents are
`List Char` (the carriers are ASCII-structured, so byte-level regex/replace
operations on UTF-8 bytes coincide with character-level operations on the
decoded text for the ASCII patterns used); byte strings are `List Nat` with
each entry below 256; floating-point wavelet coefficients are modelled as
exact rationals, with Python's banker's rounding modelled by `roundHalfEven`;
library primitives whose internals live outside the repository (SHA-256,
RSA-PSS, base64, the filesystem) are universally quantified parameters, so
every theorem holds for any behaviour of those primitives that satisfies the
stated, standard hypotheses.
-/

namespace StegoCrypt

/-- Index of the first occurrence of `sep` in `l` (leftmost match), as used by
Python's `str.split` / `bytes.replace` scanning. -/
def firstOccIdx (sep : List Char) : List Char → Option Nat
  | [] => if sep.isEmpty then some 0 else none
  | a :: t => if sep.isPrefixOf (a :: t) then some 0 else (firstOccIdx sep t).map (· + 1)

/-- `sep` occurs somewhere in `l` as a contiguous block. -/
def Occurs (sep l : List Char) : Prop := ∃ i, sep.isPrefixOf (l.drop i)

/-- Boolean containment test, mirroring Python's `sep in s`. -/
def containsSeq (sep l : List Char) : Bool := (firstOccIdx sep l).isSome

theorem isPrefixOf_iff_exists {p l : List Char} :
    p.isPrefixOf l = true ↔ ∃ t, l = p ++ t := by
  induction p generalizing l with
  | nil => simp [List.isPrefixOf]
  | cons a as ih =>
    cases l with
    | nil => simp [List.isPrefixOf]
    | cons b bs =>
      simp only [List.isPrefixOf, Bool.and_eq_true, beq_iff_eq, ih, List.cons_append,
        List.cons.injEq]
      constructor
      · rintro ⟨rfl, t, rfl⟩; exact ⟨t, rfl, rfl⟩
      · rintro ⟨t, rfl, rfl⟩; exact ⟨rfl, t, rfl⟩

theorem isPrefixOf_length_le {p l : List Char} (h : p.isPrefixOf l = true) :
    p.length ≤ l.length := by
  obtain ⟨t, rfl⟩ := isPrefixOf_iff_exists.mp h
  simp

theorem isPrefixOf_append_self (p t : List Char) : p.isPrefixOf (p ++ t) = true :=
  isPrefixOf_iff_exists.mpr ⟨t, rfl⟩

theorem firstOccIdx_none_iff {sep l : List Char} :
    firstOccIdx sep l = none ↔ ∀ i, ¬ sep.isPrefixOf (l.drop i) := by
  induction l with
  | nil => cases sep <;> simp [firstOccIdx, List.isPrefixOf]
  | cons a t ih =>
    simp only [firstOccIdx]
    by_cases hp : sep.isPrefixOf (a :: t) = true
    · simp only [hp, if_true]
      constructor
      · intro h; exact absurd h (by simp)
      · intro h; exact absurd hp (by simpa using h 0)
    · simp only [hp, if_false]
      constructor
      · intro h i
        cases i with
        | zero => simpa using hp
        | succ j =>
          have hnone : firstOccIdx sep t = none := by
            cases hfo : firstOccIdx sep t with
            | none => rfl
            | some k => rw [hfo] at h; simp at h
          exact (ih.mp hnone) j
      · intro h
        have hnone : firstOccIdx sep t = none := ih.mpr (fun i => by simpa using h (i + 1))
        simp [hnone]

theorem firstOccIdx_some_spec {sep l : List Char} {i : Nat}
    (h : firstOccIdx sep l = some i) :
    sep.isPrefixOf (l.drop i) = true ∧ ∀ j < i, ¬ sep.isPrefixOf (l.drop j) := by
  induction l generalizing i with
  | nil =>
    cases sep with
    | nil =>
      simp only [firstOccIdx, List.isEmpty, if_true, Option.some.injEq] at h
      subst h
      exact ⟨by simp [List.isPrefixOf], by omega⟩
    | cons c cs => simp [firstOccIdx, List.isEmpty] at h
  | cons a t ih =>
    simp only [firstOccIdx] at h
    by_cases hp : sep.isPrefixOf (a :: t) = true
    · simp only [hp, if_true, Option.some.injEq] at h
      subst h
      exact ⟨by simpa using hp, by omega⟩
    · rw [if_neg hp] at h
      cases hfo : firstOccIdx sep t with
      | none => rw [hfo] at h; simp at h
      | some j =>
        rw [hfo] at h
        simp only [Option.map_some', Option.some.injEq] at h
        subst h
        obtain ⟨h1, h2⟩ := ih hfo
        refine ⟨by simpa using h1, ?_⟩
        intro k hk
        cases k with
        | zero => simpa using hp
        | succ m => simpa using h2 m (by omega)

theorem firstOccIdx_eq_some_of {sep l : List Char} {i : Nat}
    (h1 : sep.isPrefixOf (l.drop i) = true)
    (h2 : ∀ j < i, ¬ sep.isPrefixOf (l.drop j)) :
    firstOccIdx sep l = some i := by
  cases hfo : firstOccIdx sep l with
  | none => exact absurd h1 (by simpa using firstOccIdx_none_iff.mp hfo i)
  | some k =>
    obtain ⟨hk1, hk2⟩ := firstOccIdx_some_spec hfo
    rcases Nat.lt_trichotomy k i with hlt | rfl | hgt
    · exact absurd hk1 (by simpa using h2 k hlt)
    · rfl
    · exact absurd h1 (by simpa using hk2 i hgt)

theorem firstOccIdx_le {sep l : List Char} {i : Nat} (h : firstOccIdx sep l = some i) :
    i + sep.length ≤ l.length := by
  obtain ⟨h1, h2⟩ := firstOccIdx_some_spec h
  cases hsep : sep with
  | nil =>
    subst hsep
    have : i = 0 := by
      by_contra hc
      exact h2 0 (by omega) (isPrefixOf_iff_exists.mpr ⟨l.drop 0, (List.nil_append _).symm⟩)
    simp [this]
  | cons c cs =>
    rw [hsep] at h1
    have hlen := isPrefixOf_length_le h1
    simp only [List.length_drop, List.length_cons] at hlen
    simp only [List.length_cons]
    omega

theorem occurs_iff_containsSeq {sep l : List Char} :
    Occurs sep l ↔ containsSeq sep l = true := by
  unfold Occurs containsSeq
  cases hfo : firstOccIdx sep l with
  | none =>
    simp only [Option.isSome_none]
    constructor
    · rintro ⟨i, hi⟩; exact absurd hi (by simpa using firstOccIdx_none_iff.mp hfo i)
    · intro h; cases h
  | some i => exact ⟨fun _ => rfl, fun _ => ⟨i, (firstOccIdx_some_spec hfo).1⟩⟩

theorem not_occurs_iff_firstOccIdx_none {sep l : List Char} :
    ¬ Occurs sep l ↔ firstOccIdx sep l = none := by
  rw [occurs_iff_containsSeq]
  unfold containsSeq
  cases firstOccIdx sep l <;> simp

/-- Fuelled worker for `splitOnSeq` (the fuel keeps the recursion structural,
so that the kernel can evaluate concrete instances; one unit of fuel is enough
per character of input). -/
def splitOnSeqF (sep : List Char) : Nat → List Char → List (List Char)
  | 0, l => [l]
  | fuel + 1, l =>
    match firstOccIdx sep l with
    | none => [l]
    | some i =>
      if sep.isEmpty then [l]
      else l.take i :: splitOnSeqF sep fuel (l.drop (i + sep.length))

/-- Python-style `s.split(sep)` for a nonempty `sep`: greedy left-to-right
non-overlapping matching (for empty `sep` we return `[l]`; Python raises). -/
def splitOnSeq (sep l : List Char) : List (List Char) := splitOnSeqF sep l.length l

/-- Fuelled worker for `replaceSeq`. -/
def replaceSeqF (pat rep : List Char) : Nat → List Char → List Char
  | 0, l => l
  | fuel + 1, l =>
    match firstOccIdx pat l with
    | none => l
    | some i =>
      if pat.isEmpty then l
      else l.take i ++ rep ++ replaceSeqF pat rep fuel (l.drop (i + pat.length))

/-- Python-style `s.replace(pat, rep)`: replace all non-overlapping
occurrences, scanning left to right. -/
def replaceSeq (pat rep l : List Char) : List Char := replaceSeqF pat rep l.length l

theorem splitOnSeqF_nil (sep : List Char) (fuel : Nat) : splitOnSeqF sep fuel [] = [[]] := by
  cases fuel with
  | zero => rfl
  | succ k =>
    cases sep with
    | nil => simp [splitOnSeqF, firstOccIdx, List.isEmpty]
    | cons c cs => simp [splitOnSeqF, firstOccIdx, List.isEmpty]

theorem replaceSeqF_nil (pat rep : List Char) (fuel : Nat) :
    replaceSeqF pat rep fuel [] = [] := by
  cases fuel with
  | zero => rfl
  | succ k =>
    cases pat with
    | nil => simp [replaceSeqF, firstOccIdx, List.isEmpty]
    | cons c cs => simp [replaceSeqF, firstOccIdx, List.isEmpty]

theorem splitOnSeqF_irrel (sep : List Char) :
    ∀ (n : Nat) (l : List Char) (fuel1 fuel2 : Nat), l.length ≤ n →
      l.length ≤ fuel1 → l.length ≤ fuel2 →
      splitOnSeqF sep fuel1 l = splitOnSeqF sep fuel2 l := by
  intro n
  induction n with
  | zero =>
    intro l fuel1 fuel2 hn _ _
    have : l = [] := List.length_eq_zero.mp (by omega)
    subst this
    rw [splitOnSeqF_nil, splitOnSeqF_nil]
  | succ k ih =>
    intro l fuel1 fuel2 hn h1 h2
    cases l with
    | nil => rw [splitOnSeqF_nil, splitOnSeqF_nil]
    | cons a t =>
      cases fuel1 with
      | zero => simp at h1
      | succ f1 =>
        cases fuel2 with
        | zero => simp at h2
        | succ f2 =>
          simp only [splitOnSeqF]
          cases hfo : firstOccIdx sep (a :: t) with
          | none => rfl
          | some i =>
            by_cases hsep : sep.isEmpty
            · simp [hsep]
            · simp only [hsep, if_false]
              have hle := firstOccIdx_le hfo
              have hslen : 0 < sep.length := by cases sep <;> simp_all [List.isEmpty]
              have hlen : ((a :: t).drop (i + sep.length)).length ≤ k := by
                simp only [List.length_drop]
                simp only [List.length_cons] at hn hle ⊢
                omega
              have h1' : ((a :: t).drop (i + sep.length)).length ≤ f1 := by
                simp only [List.length_drop, List.length_cons] at h1 hle ⊢; omega
              have h2' : ((a :: t).drop (i + sep.length)).length ≤ f2 := by
                simp only [List.length_drop, List.length_cons] at h2 hle ⊢; omega
              rw [ih _ f1 f2 hlen h1' h2']

theorem replaceSeqF_irrel (pat rep : List Char) :
    ∀ (n : Nat) (l : List Char) (fuel1 fuel2 : Nat), l.length ≤ n →
      l.length ≤ fuel1 → l.length ≤ fuel2 →
      replaceSeqF pat rep fuel1 l = replaceSeqF pat rep fuel2 l := by
  intro n
  induction n with
  | zero =>
    intro l fuel1 fuel2 hn _ _
    have : l = [] := List.length_eq_zero.mp (by omega)
    subst this
    rw [replaceSeqF_nil, replaceSeqF_nil]
  | succ k ih =>
    intro l fuel1 fuel2 hn h1 h2
    cases l with
    | nil => rw [replaceSeqF_nil, replaceSeqF_nil]
    | cons a t =>
      cases fuel1 with
      | zero => simp at h1
      | succ f1 =>
        cases fuel2 with
        | zero => simp at h2
        | succ f2 =>
          simp only [replaceSeqF]
          cases hfo : firstOccIdx pat (a :: t) with
          | none => rfl
          | some i =>
            by_cases hpat : pat.isEmpty
            · simp [hpat]
            · simp only [hpat, if_false]
              have hle := firstOccIdx_le hfo
              have hslen : 0 < pat.length := by cases pat <;> simp_all [List.isEmpty]
              have hlen : ((a :: t).drop (i + pat.length)).length ≤ k := by
                simp only [List.length_drop]
                simp only [List.length_cons] at hn hle ⊢
                omega
              rw [ih _ f1 f2 hlen
                (by simp only [List.length_drop, List.length_cons] at h1 hle ⊢; omega)
                (by simp only [List.length_drop, List.length_cons] at h2 hle ⊢; omega)]

theorem occurs_mem {p l : List Char} (h : Occurs p l) : ∀ c ∈ p, c ∈ l := by
  obtain ⟨i, hi⟩ := h
  obtain ⟨t, ht⟩ := isPrefixOf_iff_exists.mp hi
  intro c hc
  have : c ∈ l.drop i := ht ▸ List.mem_append_left _ hc
  exact List.mem_of_mem_drop this

theorem not_occurs_of_head_not_mem {c : Char} {cs l : List Char} (h : c ∉ l) :
    ¬ Occurs (c :: cs) l := by
  intro hocc
  exact h (occurs_mem hocc c (by simp))

theorem isPrefixOf_append_cases {p x y : List Char} (h : p.isPrefixOf (x ++ y) = true) :
    p.isPrefixOf x = true ∨ ∃ s, p = x ++ s ∧ s.isPrefixOf y = true := by
  obtain ⟨t, ht⟩ := isPrefixOf_iff_exists.mp h
  by_cases hlen : p.length ≤ x.length
  · left
    have hp : p = x.take p.length := by
      have h2 : (x ++ y).take p.length = x.take p.length := List.take_append_of_le_length hlen
      rw [ht, List.take_left' rfl] at h2
      exact h2
    exact isPrefixOf_iff_exists.mpr ⟨x.drop p.length, by
      conv_lhs => rw [← List.take_append_drop p.length x, ← hp]⟩
  · right
    push_neg at hlen
    refine ⟨p.drop x.length, ?_, ?_⟩
    · have : (x ++ y).take x.length = (p ++ t).take x.length := by rw [ht]
      rw [List.take_left, List.take_append_of_le_length (by omega)] at this
      conv_lhs => rw [← List.take_append_drop x.length p, ← this]
    · have hy : y = p.drop x.length ++ t := by
        have : (x ++ y).drop x.length = (p ++ t).drop x.length := by rw [ht]
        rw [List.drop_left, List.drop_append_of_le_length (by omega)] at this
        exact this
      exact isPrefixOf_iff_exists.mpr ⟨t, hy⟩

theorem splitOnSeq_of_none {sep l : List Char} (h : firstOccIdx sep l = none) :
    splitOnSeq sep l = [l] := by
  cases l with
  | nil => rfl
  | cons a t => simp [splitOnSeq, splitOnSeqF, h]

theorem splitOnSeq_of_some {sep l : List Char} {i : Nat} (hsep : sep ≠ [])
    (h : firstOccIdx sep l = some i) :
    splitOnSeq sep l = l.take i :: splitOnSeq sep (l.drop (i + sep.length)) := by
  have hne : sep.isEmpty = false := by cases sep <;> simp_all [List.isEmpty]
  have hle := firstOccIdx_le h
  have hslen : 0 < sep.length := by cases sep <;> simp_all
  cases l with
  | nil => simp only [List.length_nil, Nat.le_zero] at hle; omega
  | cons a t =>
    have heq : splitOnSeqF sep t.length ((a :: t).drop (i + sep.length)) =
        splitOnSeqF sep ((a :: t).drop (i + sep.length)).length
          ((a :: t).drop (i + sep.length)) := by
      apply splitOnSeqF_irrel sep ((a :: t).drop (i + sep.length)).length _ _ _ (le_refl _)
      · simp only [List.length_drop, List.length_cons] at hle ⊢; omega
      · exact le_refl _
    simp [splitOnSeq, splitOnSeqF, h, hne, heq]

theorem splitOnSeq_ne_nil (sep l : List Char) : splitOnSeq sep l ≠ [] := by
  cases l with
  | nil => simp [splitOnSeq, splitOnSeqF_nil]
  | cons a t =>
    simp only [splitOnSeq, List.length_cons, splitOnSeqF]
    cases firstOccIdx sep (a :: t) with
    | none => simp
    | some i =>
      by_cases hsep : sep.isEmpty <;> simp [hsep]

theorem replaceSeq_of_none {pat rep l : List Char} (h : firstOccIdx pat l = none) :
    replaceSeq pat rep l = l := by
  cases l with
  | nil => rfl
  | cons a t => simp [replaceSeq, replaceSeqF, h]

theorem replaceSeq_of_some {pat rep l : List Char} {i : Nat} (hpat : pat ≠ [])
    (h : firstOccIdx pat l = some i) :
    replaceSeq pat rep l = l.take i ++ rep ++ replaceSeq pat rep (l.drop (i + pat.length)) := by
  have hne : pat.isEmpty = false := by cases pat <;> simp_all [List.isEmpty]
  have hle := firstOccIdx_le h
  have hslen : 0 < pat.length := by cases pat <;> simp_all
  cases l with
  | nil => simp only [List.length_nil, Nat.le_zero] at hle; omega
  | cons a t =>
    have heq : replaceSeqF pat rep t.length ((a :: t).drop (i + pat.length)) =
        replaceSeqF pat rep ((a :: t).drop (i + pat.length)).length
          ((a :: t).drop (i + pat.length)) := by
      apply replaceSeqF_irrel pat rep ((a :: t).drop (i + pat.length)).length _ _ _ (le_refl _)
      · simp only [List.length_drop, List.length_cons] at hle ⊢; omega
      · exact le_refl _
    simp [replaceSeq, replaceSeqF, h, hne, heq]

theorem firstOccIdx_cons_of_not {sep : List Char} {a : Char} {t : List Char}
    (h : ¬ sep.isPrefixOf (a :: t) = true) :
    firstOccIdx sep (a :: t) = (firstOccIdx sep t).map (· + 1) := by
  simp [firstOccIdx, h]

theorem replaceSeq_cons_of_not {pat rep : List Char} {a : Char} {t : List Char}
    (hpat : pat ≠ []) (h : ¬ pat.isPrefixOf (a :: t) = true) :
    replaceSeq pat rep (a :: t) = a :: replaceSeq pat rep t := by
  cases hfo : firstOccIdx pat t with
  | none =>
    have h2 : firstOccIdx pat (a :: t) = none := by
      rw [firstOccIdx_cons_of_not h, hfo]; rfl
    rw [replaceSeq_of_none h2, replaceSeq_of_none hfo]
  | some i =>
    have h2 : firstOccIdx pat (a :: t) = some (i + 1) := by
      rw [firstOccIdx_cons_of_not h, hfo]; rfl
    rw [replaceSeq_of_some hpat h2, replaceSeq_of_some hpat hfo]
    simp only [List.take_succ_cons, List.cons_append]
    congr 2
    have : i + 1 + pat.length = (i + pat.length) + 1 := by omega
    rw [this, List.drop_succ_cons]

theorem replaceSeq_head_match {pat rep t : List Char} (hpat : pat ≠ []) :
    replaceSeq pat rep (pat ++ t) = rep ++ replaceSeq pat rep t := by
  have h0 : firstOccIdx pat (pat ++ t) = some 0 :=
    firstOccIdx_eq_some_of (by simpa using isPrefixOf_append_self pat t) (by omega)
  rw [replaceSeq_of_some hpat h0]
  simp [List.drop_left']

/-- Python's `s.split(sep)[-1]`. -/
def lastPartOf (sep l : List Char) : List Char := (splitOnSeq sep l).getLastD []

/-- Python's `s.split(sep)[0]`. -/
def headPartOf (sep l : List Char) : List Char := (splitOnSeq sep l).headD []

theorem lastPartOf_of_none {sep l : List Char} (h : firstOccIdx sep l = none) :
    lastPartOf sep l = l := by
  simp [lastPartOf, splitOnSeq_of_none h]

theorem headPartOf_of_none {sep l : List Char} (h : firstOccIdx sep l = none) :
    headPartOf sep l = l := by
  simp [headPartOf, splitOnSeq_of_none h]

theorem headPartOf_of_some {sep l : List Char} {i : Nat} (hsep : sep ≠ [])
    (h : firstOccIdx sep l = some i) : headPartOf sep l = l.take i := by
  simp [headPartOf, splitOnSeq_of_some hsep h]

theorem lastPartOf_of_some {sep l : List Char} {i : Nat} (hsep : sep ≠ [])
    (h : firstOccIdx sep l = some i) :
    lastPartOf sep l = lastPartOf sep (l.drop (i + sep.length)) := by
  unfold lastPartOf
  rw [splitOnSeq_of_some hsep h]
  have hne := splitOnSeq_ne_nil sep (l.drop (i + sep.length))
  cases hs : splitOnSeq sep (l.drop (i + sep.length)) with
  | nil => exact absurd hs hne
  | cons a t => simp [List.getLastD_cons]

theorem drop_eq_sep_append {sep l : List Char} {i : Nat}
    (h : sep.isPrefixOf (l.drop i) = true) :
    l.drop i = sep ++ l.drop (i + sep.length) := by
  obtain ⟨t, ht⟩ := isPrefixOf_iff_exists.mp h
  have h2 : l.drop (i + sep.length) = t := by
    have h3 : l.drop (i + sep.length) = (l.drop i).drop sep.length := by
      rw [List.drop_drop, Nat.add_comm]
    rw [h3, ht, List.drop_left]
  rw [ht, h2]

theorem lastPart_decomp {sep : List Char} (hsep : sep ≠ []) :
    ∀ l : List Char, Occurs sep l →
      (∃ pre, l = pre ++ sep ++ lastPartOf sep l) ∧ ¬ Occurs sep (lastPartOf sep l) := by
  intro l
  generalize hn : l.length = n
  induction n using Nat.strong_induction_on generalizing l with
  | _ n ih =>
    intro hocc
    cases hfo : firstOccIdx sep l with
    | none => exact absurd hfo (by
        obtain ⟨i, hi⟩ := hocc
        intro hc
        exact firstOccIdx_none_iff.mp hc i hi)
    | some i =>
      have hpre := (firstOccIdx_some_spec hfo).1
      have hdec : l.drop i = sep ++ l.drop (i + sep.length) := drop_eq_sep_append hpre
      have hlen := firstOccIdx_le hfo
      have hsl : 0 < sep.length := by cases sep <;> simp_all
      have hfull : l = l.take i ++ sep ++ l.drop (i + sep.length) := by
        conv_lhs => rw [← List.take_append_drop i l, hdec]
        simp [List.append_assoc]
      rw [lastPartOf_of_some hsep hfo]
      by_cases hocc2 : Occurs sep (l.drop (i + sep.length))
      · have hlt : (l.drop (i + sep.length)).length < n := by
          subst hn; simp [List.length_drop]; omega
        obtain ⟨⟨pre', hpre'⟩, hno⟩ := ih _ hlt _ rfl hocc2
        refine ⟨⟨l.take i ++ sep ++ pre', ?_⟩, hno⟩
        conv_lhs => rw [hfull, hpre']
        simp [List.append_assoc]
      · have hnone : firstOccIdx sep (l.drop (i + sep.length)) = none :=
          not_occurs_iff_firstOccIdx_none.mp hocc2
        rw [lastPartOf_of_none hnone]
        exact ⟨⟨l.take i, hfull⟩, hocc2⟩

theorem firstOccIdx_boundary {sep x y : List Char}
    (hpre : sep.isPrefixOf ((x ++ sep ++ y).drop x.length) = true)
    (hxy : ∀ j < x.length, ¬ sep.isPrefixOf ((x ++ sep ++ y).drop j) = true) :
    firstOccIdx sep (x ++ sep ++ y) = some x.length :=
  firstOccIdx_eq_some_of hpre hxy

theorem drop_boundary (x z : List Char) : (x ++ z).drop x.length = z := List.drop_left x z

theorem splitOnSeq_boundary_two {sep x y : List Char} (hsep : sep ≠ [])
    (hxy : ∀ j < x.length, ¬ sep.isPrefixOf ((x ++ sep ++ y).drop j) = true)
    (hy : firstOccIdx sep y = none) :
    splitOnSeq sep (x ++ sep ++ y) = [x, y] := by
  have hpre : sep.isPrefixOf ((x ++ sep ++ y).drop x.length) = true := by
    rw [show x ++ sep ++ y = x ++ (sep ++ y) by simp, drop_boundary]
    exact isPrefixOf_append_self _ _
  rw [splitOnSeq_of_some hsep (firstOccIdx_boundary hpre hxy)]
  have ht : (x ++ sep ++ y).take x.length = x := by
    rw [show x ++ sep ++ y = x ++ (sep ++ y) by simp, List.take_left]
  have hd : (x ++ sep ++ y).drop (x.length + sep.length) = y := by
    rw [show x ++ sep ++ y = (x ++ sep) ++ y by simp,
      show x.length + sep.length = (x ++ sep).length by simp, drop_boundary]
  rw [ht, hd, splitOnSeq_of_none hy]

/-- Whitespace characters stripped by Python's `str.strip()` (ASCII subset). -/
def isWsChar (c : Char) : Bool :=
  c = ' ' || c = '\t' || c = '\n' || c = '\r' || c = '\x0b' || c = '\x0c'

/-- Python's `str.strip()`. -/
def pyStrip (l : List Char) : List Char :=
  ((l.dropWhile isWsChar).reverse.dropWhile isWsChar).reverse

theorem firstOccIdx_single_not_mem {c : Char} {l : List Char} (h : c ∉ l) :
    firstOccIdx [c] l = none :=
  not_occurs_iff_firstOccIdx_none.mp (not_occurs_of_head_not_mem h)

theorem splitOnSeq_single_no {c : Char} {x : List Char} (hx : c ∉ x) :
    splitOnSeq [c] x = [x] :=
  splitOnSeq_of_none (firstOccIdx_single_not_mem hx)

theorem splitOnSeq_single_append {c : Char} {x y : List Char} (hx : c ∉ x) :
    splitOnSeq [c] (x ++ c :: y) = x :: splitOnSeq [c] y := by
  have hocc : firstOccIdx [c] (x ++ c :: y) = some x.length := by
    apply firstOccIdx_eq_some_of
    · rw [drop_boundary]
      exact isPrefixOf_iff_exists.mpr ⟨y, rfl⟩
    · intro j hj hpre
      rw [List.drop_append_of_le_length (by omega)] at hpre
      obtain ⟨t, ht⟩ := isPrefixOf_iff_exists.mp hpre
      cases hxd : x.drop j with
      | nil =>
        have : x.length - j = 0 := by simpa [List.length_drop] using congrArg List.length hxd
        omega
      | cons d ds =>
        rw [hxd] at ht
        have hd : d = c := by simpa using congrArg (List.head? ·) ht
        apply hx
        have : d ∈ x.drop j := by rw [hxd]; simp
        exact hd ▸ List.mem_of_mem_drop this
  rw [splitOnSeq_of_some (by simp) hocc, List.take_left]
  congr 1
  rw [show x ++ c :: y = (x ++ [c]) ++ y by simp,
    show x.length + [c].length = (x ++ [c]).length by simp, drop_boundary]

theorem pyStrip_eq_self {l : List Char} {c1 c2 : Char} (h1 : l.head? = some c1)
    (h2 : isWsChar c1 = false) (h3 : l.getLast? = some c2) (h4 : isWsChar c2 = false) :
    pyStrip l = l := by
  unfold pyStrip
  cases l with
  | nil => simp at h1
  | cons a t =>
    have ha : a = c1 := by simpa using h1
    rw [List.dropWhile_cons, if_neg (by rw [ha, h2]; simp)]
    cases hr : (a :: t).reverse with
    | nil => simpa using congrArg List.length hr
    | cons b u =>
      have hb : b = c2 := by
        have := List.head?_reverse (a :: t)
        rw [hr, h3] at this
        simpa using this
      rw [List.dropWhile_cons, if_neg (by rw [hb, h4]; simp), ← hr]
      simp

theorem pyStrip_nil : pyStrip [] = [] := rfl

/-! ### Image carrier: `backend/modules/stega_image.py`

Wavelet coefficients are floats in the source; they are modelled as exact
rationals, and Python's `round` (banker's rounding) as `roundHalfEven`. -/

/-- `ECC_BYTES = 40` in `stega_image.py` (the Reed-Solomon parity count). -/
def ECC_BYTES : Nat := 40

/-- `Q = 35.0` in `stega_image.py` (the QIM quantization step). -/
def Q : ℚ := 35

/-- Python's `round`: round half to even. -/
def roundHalfEven (x : ℚ) : ℤ :=
  if Int.fract x < 1/2 then ⌊x⌋
  else if 1/2 < Int.fract x then ⌊x⌋ + 1
  else if Even ⌊x⌋ then ⌊x⌋ else ⌊x⌋ + 1

theorem roundHalfEven_intCast (n : ℤ) : roundHalfEven (n : ℚ) = n := by
  norm_num [roundHalfEven, Int.fract_intCast]

theorem abs_roundHalfEven_sub (x : ℚ) : |(roundHalfEven x : ℚ) - x| ≤ 1/2 := by
  have h0 : (0:ℚ) ≤ Int.fract x := Int.fract_nonneg x
  have h1 : Int.fract x < 1 := Int.fract_lt_one x
  have hf : (⌊x⌋ : ℚ) = x - Int.fract x := by rw [Int.fract]; ring
  unfold roundHalfEven
  split_ifs with hlt hgt hev <;>
    · rw [abs_le]
      constructor <;> [skip; skip] <;> push_cast [hf] <;> linarith

/-- `embed_in_coeff` from `stega_image.py.embed`: one QIM step (`bit` is the
integer 0 or 1 coming from `int(bit)` on a '0'/'1' character). -/
def embedInCoeff (val : ℚ) (bit : ℤ) : ℚ :=
  let q := roundHalfEven (val / Q)
  let q2 := if q % 2 ≠ bit then (if (q : ℚ) < val / Q then q + 1 else q - 1) else q
  q2 * Q

/-- `get_bit` from `stega_image.py.extract` ('1'/'0' characters are modelled
as booleans). -/
def getBit (val : ℚ) : Bool := roundHalfEven (val / Q) % 2 == 1

theorem qim_core {x : ℚ} {b q2 : ℤ} (hb : b = 0 ∨ b = 1)
    (hq2 : q2 = if roundHalfEven x % 2 ≠ b then
        (if (roundHalfEven x : ℚ) < x then roundHalfEven x + 1 else roundHalfEven x - 1)
      else roundHalfEven x) :
    q2 % 2 = b ∧ |(q2:ℚ) - x| ≤ 1 ∧ ∀ m : ℤ, m % 2 = b → |(q2:ℚ) - x| ≤ |(m:ℚ) - x| := by
  have habs := abs_roundHalfEven_sub x
  set q := roundHalfEven x with hqdef
  obtain ⟨hql, hqr⟩ := abs_le.mp habs
  have hdist : ∀ m : ℤ, m % 2 = b → q2 % 2 = b → m ≠ q2 → (2:ℚ) ≤ |(m:ℚ) - (q2:ℚ)| := by
    intro m hm hq2p hne
    have hdvd : (2:ℤ) ∣ (m - q2) := by omega
    have hne2 : m - q2 ≠ 0 := sub_ne_zero.mpr hne
    have h2 : (2:ℤ) ≤ |m - q2| := Int.le_of_dvd (abs_pos.mpr hne2) ((dvd_abs 2 _).mpr hdvd)
    have h3 : ((2:ℤ):ℚ) ≤ ((|m - q2| : ℤ) : ℚ) := by exact_mod_cast h2
    rw [Int.cast_abs] at h3
    push_cast at h3 ⊢
    linarith
  have hnear : q2 % 2 = b → |(q2:ℚ) - x| ≤ 1 →
      ∀ m : ℤ, m % 2 = b → |(q2:ℚ) - x| ≤ |(m:ℚ) - x| := by
    intro hq2p hbound m hm
    by_cases hne : m = q2
    · subst hne; exact le_refl _
    · have h2 := hdist m hm hq2p hne
      have h5 := abs_sub_le (m:ℚ) x (q2:ℚ)
      have h6 : |x - (q2:ℚ)| = |(q2:ℚ) - x| := abs_sub_comm _ _
      linarith
  by_cases hpar : q % 2 = b
  · have hq2e : q2 = q := by rw [hq2, if_neg (by simpa using hpar)]
    have hpar2 : q2 % 2 = b := by rw [hq2e]; exact hpar
    have hbound : |(q2:ℚ) - x| ≤ 1 := by
      rw [abs_le]; constructor <;> push_cast [hq2e] <;> linarith
    exact ⟨hpar2, hbound, hnear hpar2 hbound⟩
  · by_cases hlt : (q:ℚ) < x
    · have hq2e : q2 = q + 1 := by rw [hq2, if_pos (by simpa using hpar), if_pos hlt]
      have hpar2 : q2 % 2 = b := by omega
      have hbound : |(q2:ℚ) - x| ≤ 1 := by
        rw [abs_le]; constructor <;> push_cast [hq2e] <;> linarith
      exact ⟨hpar2, hbound, hnear hpar2 hbound⟩
    · have hq2e : q2 = q - 1 := by rw [hq2, if_pos (by simpa using hpar), if_neg hlt]
      push_neg at hlt
      have hpar2 : q2 % 2 = b := by omega
      have hbound : |(q2:ℚ) - x| ≤ 1 := by
        rw [abs_le]; constructor <;> push_cast [hq2e] <;> linarith
      exact ⟨hpar2, hbound, hnear hpar2 hbound⟩

/-- C7: for every coefficient `c` (modelled as an exact rational) and every
bit `b ∈ {0, 1}`, the QIM step `embed_in_coeff` returns the multiple of the
step `Q` nearest to `c` whose quotient by `Q` has parity `b`; in particular
`round(result / Q) mod 2 = b` and `|result - c| ≤ Q`. -/
theorem C7_qim_step_nearest (v : ℚ) (b : ℤ) (hb : b = 0 ∨ b = 1) :
    roundHalfEven (embedInCoeff v b / Q) % 2 = b ∧
    |embedInCoeff v b - v| ≤ Q ∧
    ∀ m : ℤ, m % 2 = b → |embedInCoeff v b - v| ≤ |(m : ℚ) * Q - v| := by
  have hQ : (0:ℚ) < Q := by norm_num [Q]
  have hQne : Q ≠ 0 := ne_of_gt hQ
  obtain ⟨h1, h2, h3⟩ := qim_core (x := v / Q) (b := b) hb rfl
  set q2 : ℤ := if roundHalfEven (v / Q) % 2 ≠ b then
      (if (roundHalfEven (v / Q) : ℚ) < v / Q then roundHalfEven (v / Q) + 1
       else roundHalfEven (v / Q) - 1)
    else roundHalfEven (v / Q) with hq2
  have hE : embedInCoeff v b = (q2 : ℚ) * Q := rfl
  have hscale : ∀ a : ℚ, |a * Q - v| = |a - v / Q| * Q := by
    intro a
    have hs : a * Q - v = (a - v / Q) * Q := by
      rw [sub_mul, div_mul_cancel₀ _ hQne]
    rw [hs, abs_mul, abs_of_pos hQ]
  refine ⟨?_, ?_, ?_⟩
  · rw [hE, mul_div_cancel_right₀ _ hQne, roundHalfEven_intCast]
    exact h1
  · rw [hE, hscale]
    have := mul_le_mul_of_nonneg_right h2 (le_of_lt hQ)
    simpa using this
  · intro m hm
    rw [hE, hscale, hscale]
    exact mul_le_mul_of_nonneg_right (h3 m hm) (le_of_lt hQ)

/-- Witness for C7 at `v = 10`, `b = 1`, with the nearest-lattice instance
`m = 3`. -/
theorem C7_qim_step_nearest_witness :
    ((1:ℤ) = 0 ∨ (1:ℤ) = 1) ∧
    roundHalfEven (embedInCoeff 10 1 / Q) % 2 = 1 ∧
    |embedInCoeff 10 1 - 10| ≤ Q ∧
    |embedInCoeff 10 1 - 10| ≤ |(3 : ℚ) * Q - 10| := by
  have h := C7_qim_step_nearest 10 1 (Or.inr rfl)
  exact ⟨Or.inr rfl, h.1, h.2.1, h.2.2 3 (by decide)⟩

/-- `format(byte, "08b")`: the 8 bits of a byte, most significant first. -/
def byteBits (b : Nat) : List Bool :=
  [b.testBit 7, b.testBit 6, b.testBit 5, b.testBit 4,
   b.testBit 3, b.testBit 2, b.testBit 1, b.testBit 0]

/-- `bytes_to_bits` from `stega_image.py` ('0'/'1' characters modelled as
booleans). -/
def bytesToBits (l : List Nat) : List Bool := (l.map byteBits).flatten

/-- `int(bits, 2)` on one 8-character group. -/
def bitsVal (l : List Bool) : Nat := l.foldl (fun acc b => 2 * acc + (if b then 1 else 0)) 0

/-- `bits_to_bytes` from `stega_image.py`: 8-bit groups, an incomplete final
group is dropped (`if len(byte) < 8: break`). -/
def bitsToBytes (l : List Bool) : List Nat :=
  if h : 8 ≤ l.length then bitsVal (l.take 8) :: bitsToBytes (l.drop 8) else []
termination_by l.length
decreasing_by simp only [List.length_drop]; omega

/-- Shift-and-add multiplication in GF(2^8) with the reedsolo default modulus
0x11d = 285 (mathematically equal to reedsolo's log/exp-table `gf_mul`). -/
def gfMulAux : Nat → Nat → Nat → Nat
  | 0, _, _ => 0
  | fuel + 1, a, b =>
    (if b % 2 = 1 then a else 0) ^^^
      gfMulAux fuel (if a < 128 then 2 * a else (2 * a) ^^^ 285) (b / 2)

/-- `gf_mul` in reedsolo (operands below 256). -/
def gfMul (a b : Nat) : Nat := gfMulAux 8 a b

/-- `gf_pow(2, n)`: powers of the reedsolo generator element 2. -/
def gfPow2 : Nat → Nat
  | 0 => 1
  | n + 1 => gfMul (gfPow2 n) 2

/-- `gf_poly_add`: right-aligned coefficient-wise xor (highest degree first). -/
def polyAddGf (p q : List Nat) : List Nat :=
  List.zipWith (· ^^^ ·)
    (List.replicate (max p.length q.length - p.length) 0 ++ p)
    (List.replicate (max p.length q.length - q.length) 0 ++ q)

/-- `gf_poly_mul`, coefficients highest-degree first. -/
def polyMulGf : List Nat → List Nat → List Nat
  | [], _ => []
  | a :: p, q => polyAddGf (q.map (gfMul a) ++ List.replicate p.length 0) (polyMulGf p q)

/-- `rs_generator_poly(nsym)` with generator 2 and fcr 0:
the product of `(x - 2^i)` for `i < nsym`. -/
def rsGenPoly : Nat → List Nat
  | 0 => [1]
  | n + 1 => polyMulGf (rsGenPoly n) [1, gfPow2 n]

/-- One step of the synthetic division performed by `rs_encode_msg`; `rem` is
the running remainder (length `ECC_BYTES`), `gt` the generator polynomial
without its leading 1. -/
def rsDivStep (gt : List Nat) (rem : List Nat) (b : Nat) : List Nat :=
  List.zipWith (fun r g => r ^^^ gfMul (b ^^^ rem.headD 0) g) (rem.drop 1 ++ [0]) gt

/-- `rs_encode_msg(msg, 40)`: systematic Reed-Solomon encoding — the message
followed by the 40 parity bytes (the remainder of `msg · x^40` modulo the
generator polynomial). -/
def rsEncodeMsg (msg : List Nat) : List Nat :=
  msg ++ msg.foldl (rsDivStep ((rsGenPoly ECC_BYTES).drop 1)) (List.replicate ECC_BYTES 0)

/-- The chunking applied by `RSCodec.encode`: 215-byte chunks
(`nsize - nsym = 255 - 40`). -/
def rsChunks (l : List Nat) : List (List Nat) :=
  if l.length ≤ 215 then (if l.isEmpty then [] else [l])
  else l.take 215 :: rsChunks (l.drop 215)
termination_by l.length
decreasing_by simp only [List.length_drop]; omega

/-- `rsc.encode(data)` for `RSCodec(40)`. -/
def rsEncode (l : List Nat) : List Nat := ((rsChunks l).map rsEncodeMsg).flatten

/-- The bitstream written by `stega_image.embed` for the UTF-8 payload bytes:
the Reed-Solomon codeword bits, MSB first.  Note there is no length header. -/
def embedBitstream (payload : List Nat) : List Bool := bytesToBits (rsEncode payload)

/-- The embedding loop of `embed`: bit `i` is written into coefficient `i` of
the flattened LH++HL stream; remaining coefficients are untouched. -/
def embedCoeffs : List ℚ → List Bool → List ℚ
  | cs, [] => cs
  | [], _ => []
  | c :: cs, b :: bs => embedInCoeff c (if b then 1 else 0) :: embedCoeffs cs bs

/-- `MAX_BITS = 16000` in `stega_image.py.extract`. -/
def MAX_BITS : Nat := 16000

/-- The bit-reading loop of `extract`: the flattened LH++HL stream is read
through `get_bit`, capped at `MAX_BITS` bits. -/
def extractBits (coeffs : List ℚ) : List Bool := (coeffs.take MAX_BITS).map getBit

/-- The byte block handed to `rsc.decode` by `extract`:
`bits_to_bytes(bits)[:1000]`. -/
def extractDecodeInput (coeffs : List ℚ) : List Nat :=
  (bitsToBytes (extractBits coeffs)).take 1000

theorem rsDivStep_length {gt rem : List Nat} (b : Nat) (hg : gt.length = 40)
    (hr : rem.length = 40) : (rsDivStep gt rem b).length = 40 := by
  simp [rsDivStep, hg, hr]

set_option maxRecDepth 8000 in
theorem rsGenPolyTail_length : ((rsGenPoly ECC_BYTES).drop 1).length = 40 := by decide

theorem rsParityAux_length (gt : List Nat) (hg : gt.length = 40) :
    ∀ (msg rem : List Nat), rem.length = 40 → (msg.foldl (rsDivStep gt) rem).length = 40 := by
  intro msg
  induction msg with
  | nil => intro rem hr; simpa using hr
  | cons b t ih =>
    intro rem hr
    simp only [List.foldl_cons]
    exact ih _ (rsDivStep_length b hg hr)

theorem rsParity_length (msg : List Nat) :
    (msg.foldl (rsDivStep ((rsGenPoly ECC_BYTES).drop 1))
      (List.replicate ECC_BYTES 0)).length = 40 :=
  rsParityAux_length _ rsGenPolyTail_length msg _ (by simp [ECC_BYTES])

theorem rsEncodeMsg_length (msg : List Nat) : (rsEncodeMsg msg).length = msg.length + 40 := by
  rw [rsEncodeMsg, List.length_append, rsParity_length]

theorem rsChunks_small {l : List Nat} (h1 : l ≠ []) (h2 : l.length ≤ 215) :
    rsChunks l = [l] := by
  rw [rsChunks, if_pos h2, if_neg (by cases l <;> simp_all)]

theorem rsChunks_big {l : List Nat} (h : ¬ l.length ≤ 215) :
    rsChunks l = l.take 215 :: rsChunks (l.drop 215) := by
  rw [rsChunks, if_neg h]

theorem bytesToBits_cons (b : Nat) (t : List Nat) :
    bytesToBits (b :: t) = byteBits b ++ bytesToBits t := by
  simp [bytesToBits]

theorem bytesToBits_length (l : List Nat) : (bytesToBits l).length = 8 * l.length := by
  induction l with
  | nil => rfl
  | cons b t ih =>
    rw [bytesToBits_cons, List.length_append, ih]
    simp [byteBits]
    omega

theorem rsEncode_length (l : List Nat) :
    (rsEncode l).length = l.length + 40 * ((l.length + 214) / 215) := by
  generalize hn : l.length = n
  induction n using Nat.strong_induction_on generalizing l with
  | _ n ih =>
    by_cases hnil : l = []
    · subst hnil
      have h0 : rsChunks [] = [] := by rw [rsChunks]; simp
      simp only [List.length_nil] at hn
      subst hn
      rw [rsEncode, h0]
      decide
    · have hpos : 0 < l.length := List.length_pos.mpr hnil
      by_cases hle : l.length ≤ 215
      · rw [rsEncode, rsChunks_small hnil hle]
        simp only [List.map_cons, List.map_nil, List.flatten_cons, List.flatten_nil,
          List.append_nil, List.length_append, rsEncodeMsg_length]
        omega
      · have hjoin : (rsEncode l).length =
            (rsEncodeMsg (l.take 215)).length + (rsEncode (l.drop 215)).length := by
          rw [rsEncode, rsChunks_big hle]
          simp [rsEncode]
        have hrec := ih (l.drop 215).length (by subst hn; simp; omega) _ rfl
        rw [hjoin, rsEncodeMsg_length, hrec]
        simp only [List.length_take, List.length_drop]
        subst hn
        omega

theorem rsEncode_take {l : List Nat} (h : l ≠ []) :
    (rsEncode l).take (min l.length 215) = l.take (min l.length 215) := by
  by_cases hle : l.length ≤ 215
  · rw [rsEncode, rsChunks_small h hle]
    have hmin : min l.length 215 = l.length := by omega
    simp only [List.map_cons, List.map_nil, List.flatten_cons, List.flatten_nil,
      List.append_nil, hmin, rsEncodeMsg]
    conv_rhs => rw [List.take_length]
    exact List.take_left' rfl
  · have hmin : min l.length 215 = 215 := by omega
    rw [rsEncode, rsChunks_big hle]
    simp only [List.map_cons, List.flatten_cons, hmin, rsEncodeMsg]
    rw [List.append_assoc, List.take_left' (by simp only [List.length_take]; omega)]

theorem embedBitstream_take8 {b : Nat} {t : List Nat} :
    (embedBitstream (b :: t)).take 8 = byteBits b := by
  have h := rsEncode_take (l := b :: t) (by simp)
  obtain ⟨k, hk⟩ : ∃ k, min (b :: t).length 215 = k + 1 :=
    ⟨min (b :: t).length 215 - 1, by simp only [List.length_cons]; omega⟩
  rw [hk] at h
  obtain ⟨r, hr⟩ : ∃ r, rsEncode (b :: t) = b :: r := by
    cases he : rsEncode (b :: t) with
    | nil =>
      rw [he] at h
      simp only [List.take_nil] at h
      exact absurd (congrArg List.length h) (by simp)
    | cons x r =>
      rw [he] at h
      simp only [List.take_succ_cons, List.cons.injEq] at h
      exact ⟨r, by rw [h.1]⟩
  rw [embedBitstream, hr, bytesToBits_cons,
    List.take_left' (show (byteBits b).length = 8 by rfl)]

/-- C1 counterexample: on a 16000-coefficient stream the extraction loop reads
16000 bits, refuting the claimed cap of "at most 15000 bits". -/
theorem C1_counterexample :
    (extractBits (List.replicate 16000 (0:ℚ))).length = 16000 ∧ ¬ (16000 : Nat) ≤ 15000 := by
  constructor
  · simp only [extractBits, List.length_map, List.length_take, List.length_replicate,
      MAX_BITS, Nat.min_self]
  · decide

/-- C1 (amended): the embedded bitstream is the MSB-first bit expansion of the
Reed-Solomon encoding of the envelope with 40 parity bytes per 215-byte chunk
and no 32-bit length header — the stream begins with the first envelope byte
itself and has length 8·(L + 40·⌈L/215⌉) bits for an L-byte envelope; the QIM
step is Q = 35; extraction reads min(capacity, 16000) bits and Reed-Solomon
decodes the first 1000 packed bytes, with no length-based `NoSignatureFound`
check. -/
theorem C1_amended (payload : List Nat) (hp : payload ≠ []) (coeffs : List ℚ) :
    Q = 35 ∧
    embedBitstream payload = bytesToBits (rsEncode payload) ∧
    (embedBitstream payload).length =
      8 * (payload.length + 40 * ((payload.length + 214) / 215)) ∧
    (embedBitstream payload).take 8 = byteBits (payload.headD 0) ∧
    (extractBits coeffs).length = min coeffs.length 16000 ∧
    extractDecodeInput coeffs = (bitsToBytes (extractBits coeffs)).take 1000 := by
  refine ⟨rfl, rfl, ?_, ?_, ?_, rfl⟩
  · rw [embedBitstream, bytesToBits_length, rsEncode_length]
  · cases payload with
    | nil => exact absurd rfl hp
    | cons b t => simpa using embedBitstream_take8 (b := b) (t := t)
  · simp only [extractBits, List.length_map, List.length_take, MAX_BITS, Nat.min_comm]

/-- Witness for C1 (amended) at the one-byte payload `[72]` and a two-entry
coefficient stream. -/
theorem C1_amended_witness :
    ([72] : List Nat) ≠ [] ∧
    (embedBitstream [72]).length = 8 * (1 + 40 * ((1 + 214) / 215)) ∧
    (extractBits [(0:ℚ), 70]).length = min 2 16000 := by
  refine ⟨by decide, ?_, ?_⟩
  · have h := (C1_amended [72] (by decide) [(0:ℚ), 70]).2.2.1
    simpa using h
  · have h := (C1_amended [72] (by decide) [(0:ℚ), 70]).2.2.2.2.1
    simpa using h

/-! ### Key store: `backend/modules/crypto.py` -/

/-- `_get_key_path`'s sanitization: every non-alphanumeric character becomes
an underscore; note that case is preserved. -/
def sanitizeName (name : List Char) : List Char :=
  name.map (fun c => if c.isAlphanum then c else '_')

/-- `_get_key_path(authority_name, key_type)` (POSIX `os.path.join`). -/
def getKeyPath (name keyType : List Char) : List Char :=
  "keys/".toList ++ sanitizeName name ++ "_".toList ++ keyType ++ ".pem".toList

/-- `load_public_key`, with the key directory abstracted as the partial map
`fs` from paths to loaded keys; a missing file raises `FileNotFoundError`
whose message carries the (sanitized) path, not the raw authority name. -/
def loadPublicKey (fs : List Char → Option Nat) (name : List Char) :
    Except (List Char) Nat :=
  match fs (getKeyPath name "public".toList) with
  | none => Except.error
      ("Public key not found at ".toList ++ getKeyPath name "public".toList ++ ".".toList)
  | some k => Except.ok k

/-! ### Text carrier: `backend/modules/stega_text.py` and the text branch of
`backend/verifier_core.py` -/

/-- The header sentinel body. -/
def BEGINCORE : List Char := "-----BEGIN OFFICIAL SIGNATURE-----".toList

/-- The footer sentinel body. -/
def ENDCORE : List Char := "-----END OFFICIAL SIGNATURE-----".toList

/-- `HEADER` from `stega_text.py`. -/
def HEADER : List Char := "\n\n-----BEGIN OFFICIAL SIGNATURE-----\n".toList

/-- `FOOTER` from `stega_text.py`. -/
def FOOTER : List Char := "\n-----END OFFICIAL SIGNATURE-----".toList

/-- The byte pair `\r\n`. -/
def CRLF : List Char := ['\r', '\n']

/-- The byte `\n`. -/
def LF : List Char := ['\n']

/-- Python text-mode reading (universal newlines): `\r\n` becomes `\n`, and
any remaining lone `\r` becomes `\n`. -/
def univNL (l : List Char) : List Char :=
  replaceSeq ['\r'] ['\n'] (replaceSeq CRLF LF l)

/-- `stega_text.embed` on the text-mode decoded content: truncate at the first
header occurrence when one is present (re-signing overrides, with a
`.strip()`), then append the signature block. -/
def textEmbed (content payload : List Char) : List Char :=
  (if containsSeq HEADER content then pyStrip (headPartOf HEADER content) else content)
    ++ HEADER ++ payload ++ FOOTER

/-- `stega_text.extract` on the text-mode decoded content: the fragment after
the final header split, then the part before the first footer, stripped;
`None` when the header is absent or no footer follows. -/
def textExtract (content : List Char) : Option (List Char) :=
  if containsSeq HEADER content then
    if containsSeq FOOTER (lastPartOf HEADER content) then
      some (pyStrip (headPartOf FOOTER (lastPartOf HEADER content)))
    else none
  else none

/-- The eight concrete byte strings matched by the verifier's header regex
`\r?\n\r?\n-----BEGIN OFFICIAL SIGNATURE-----\r?\n`. -/
def headerRegexVariants : List (List Char) :=
  [ ['\n', '\n'] ++ BEGINCORE ++ ['\n'],
    ['\n', '\n'] ++ BEGINCORE ++ ['\r', '\n'],
    ['\n', '\r', '\n'] ++ BEGINCORE ++ ['\n'],
    ['\n', '\r', '\n'] ++ BEGINCORE ++ ['\r', '\n'],
    ['\r', '\n', '\n'] ++ BEGINCORE ++ ['\n'],
    ['\r', '\n', '\n'] ++ BEGINCORE ++ ['\r', '\n'],
    ['\r', '\n', '\r', '\n'] ++ BEGINCORE ++ ['\n'],
    ['\r', '\n', '\r', '\n'] ++ BEGINCORE ++ ['\r', '\n'] ]

/-- Index of the first position where some regex alternative matches (the only
datum `re.split(header_pattern, content)[0]` depends on). -/
def firstMatchIdx (pats : List (List Char)) : List Char → Option Nat
  | [] => if pats.any (·.isEmpty) then some 0 else none
  | a :: t => if pats.any (fun p => p.isPrefixOf (a :: t)) then some 0
      else (firstMatchIdx pats t).map (· + 1)

/-- `re.split(header_pattern, content)[0]`: the bytes before the first regex
match (the whole content when there is none). -/
def strippedOriginal (content : List Char) : List Char :=
  match firstMatchIdx headerRegexVariants content with
  | none => content
  | some i => content.take i

/-- `calculate_text_hash_without_sig` from `verifier_core.py`, with SHA-256
abstracted as the digest function `H`: the raw digest, the CRLF→LF digest,
and the LF→CRLF digest of the LF-normalized bytes. -/
def textHashList (H : List Char → List Char) (content : List Char) : List (List Char) :=
  [H (strippedOriginal content),
   H (replaceSeq CRLF LF (strippedOriginal content)),
   H (replaceSeq LF CRLF (replaceSeq CRLF LF (strippedOriginal content)))]

/-- The digest list read literally from the claim's wording for C8: all three
variants are computed from the stripped bytes themselves (the third replaces
LF by CRLF in the stripped bytes, not in the LF-normalized bytes). -/
def claimTextHashList (H : List Char → List Char) (content : List Char) : List (List Char) :=
  [H (strippedOriginal content),
   H (replaceSeq CRLF LF (strippedOriginal content)),
   H (replaceSeq LF CRLF (strippedOriginal content))]

/-- `"||SIG||"`. -/
def SIGSEP : List Char := "||SIG||".toList

/-- Whether the salvage regex `\|\|.{3}\|\|` matches at the head of `l`
(`.` does not match a newline). -/
def salvageMatchAt (l : List Char) : Bool :=
  match l with
  | p1 :: p2 :: c1 :: c2 :: c3 :: p3 :: p4 :: _ =>
    p1 == '|' && p2 == '|' && !(c1 == '\n') && !(c2 == '\n') && !(c3 == '\n')
      && p3 == '|' && p4 == '|'
  | _ => false

/-- `re.search(r"\|\|.{3}\|\|", s)`: index of the first salvage match. -/
def salvageIdx : List Char → Option Nat
  | [] => none
  | a :: t => if salvageMatchAt (a :: t) then some 0 else (salvageIdx t).map (· + 1)

/-- The envelope-splitting logic of `analyze_file`: split on `||SIG||`, else
on the first salvage-regex match; the Python 2-element unpacking demands
exactly two parts (else `ValueError`, reported as a malformed payload). -/
def splitEnvelope (env : List Char) : Option (List Char × List Char) :=
  if containsSeq SIGSEP env then
    match splitOnSeq SIGSEP env with
    | [a, b] => some (a, b)
    | _ => none
  else
    match salvageIdx env with
    | none => none
    | some i =>
      match splitOnSeq ((env.drop i).take 7) env with
      | [a, b] => some (a, b)
      | _ => none

/-- `raw_data.split("|")` with the 4-way unpacking of `analyze_file`. -/
def parsePayload (raw : List Char) :
    Option (List Char × List Char × List Char × List Char) :=
  match splitOnSeq ['|'] raw with
  | [d, ts, a, m] => some (d, ts, a, m)
  | _ => none

/-- The result dictionary built by `analyze_file`. -/
structure Report where
  status : List Char
  message : List Char
  mAuthority : List Char
  mTimestamp : List Char
  mMessage : List Char
  sigCheck : Bool
  intCheck : Bool
  details : List Char
deriving DecidableEq

/-- The initial result dictionary of `analyze_file`. -/
def initReport : Report :=
  { status := "error".toList, message := "Unknown Error".toList,
    mAuthority := "Unknown".toList, mTimestamp := "Unknown".toList,
    mMessage := "None".toList, sigCheck := false, intCheck := false,
    details := [] }

/-- The text branch of `analyze_file`, with SHA-256 (`H`), the key store
(`fs`, from paths to loaded keys) and RSA-PSS signature verification
(`rsaVerify`, taking the loaded key, the payload string and the base64
signature) abstracted; `file` is the raw byte content, which extraction
re-reads in text mode (universal newlines). -/
def analyzeText (H : List Char → List Char) (fs : List Char → Option Nat)
    (rsaVerify : Nat → List Char → List Char → Bool) (file : List Char) : Report :=
  match textExtract (univNL file) with
  | none => { initReport with message := "No Signature Found".toList }
  | some env =>
    if env.isEmpty then { initReport with message := "No Signature Found".toList }
    else
      match splitEnvelope env with
      | none => { initReport with message := "Malformed Payload".toList }
      | some (raw, sig) =>
        match parsePayload raw with
        | none => { initReport with message := "Malformed Payload".toList }
        | some (d, ts, auth, msg) =>
          let base := { initReport with
            mAuthority := auth
            mTimestamp := ts
            mMessage := msg }
          match fs (getKeyPath auth "public".toList) with
          | none => { base with message := "Unknown Authority: ".toList ++ auth }
          | some pub =>
            if rsaVerify pub raw sig then
              if d ∈ textHashList H file then
                { base with
                  sigCheck := true
                  intCheck := true
                  details := "Exact Match".toList
                  status := "verified".toList
                  message := "File is Authentic".toList }
              else
                { base with
                  sigCheck := true
                  intCheck := false
                  details := "Content Modified".toList
                  status := "tampered".toList
                  message := "Signature valid, but content changed.".toList }
            else
              { base with
                status := "fake".toList
                message := "Invalid Cryptographic Signature".toList }

/-- The text path of `sign.process_signing`: hash the raw file bytes, build
the payload and envelope, and embed into the text-mode decoded content.
`ts` is the signing timestamp, `rsaSign` the abstracted RSA-PSS signer
(private key, payload string to base64 signature); `none` when the private
key is missing. -/
def processSignText (H : List Char → List Char) (fs : List Char → Option Nat)
    (rsaSign : Nat → List Char → List Char) (file auth msg ts : List Char) :
    Option (List Char) :=
  match fs (getKeyPath auth "private".toList) with
  | none => none
  | some priv =>
    let payload := H file ++ ['|'] ++ ts ++ ['|'] ++ auth ++ ['|'] ++ msg
    let envelope := payload ++ SIGSEP ++ rsaSign priv payload
    some (textEmbed (univNL file) envelope)

/-! ### PDF carrier: `backend/modules/stega_pdf.py` and `_hash_pdf_logic` -/

/-- A PDF page as `_hash_pdf_logic` consumes it: the content-stream byte
blocks (in document order) and the string representations of the
annotations in `/Annots`. -/
structure PdfPage where
  contents : List (List Char)
  annots : List (List Char)
deriving DecidableEq

/-- A PDF document: the metadata dictionary (an association list with unique
keys — Python dict semantics) and the page list. -/
structure PdfDoc where
  metadata : List (List Char × List Char)
  pages : List PdfPage
deriving DecidableEq

/-- `METADATA_KEY = "/OfficialSignature"` from `stega_pdf.py`. -/
def METADATA_KEY : List Char := "/OfficialSignature".toList

/-- Metadata dictionary lookup. -/
def metaLookup (m : List (List Char × List Char)) (k : List Char) : Option (List Char) :=
  match m with
  | [] => none
  | (k', v) :: t => if k' = k then some v else metaLookup t k

/-- The metadata part of `_hash_pdf_logic`'s stream: for each key in sorted
order, skipping `/OfficialSignature`, the key then the stringified value. -/
def pdfMetaStream (m : List (List Char × List Char)) : List Char :=
  (((((m.map Prod.fst).insertionSort (· ≤ ·)).filter
      (fun k => k ≠ METADATA_KEY)).map
    (fun k => k ++ (metaLookup m k).getD [])).flatten)

/-- The per-page part of `_hash_pdf_logic`'s stream: `PAGE:{i}`, the raw
content stream bytes, then the annotation representations. -/
def pdfPageStream (i : Nat) (p : PdfPage) : List Char :=
  "PAGE:".toList ++ (toString i).toList ++ p.contents.flatten ++ p.annots.flatten

/-- The canonical byte stream hashed by `_hash_pdf_logic` (the sequence of
`sha256.update` calls): metadata, `COUNT:{n}`, then the pages. -/
def pdfCanonicalStream (pdf : PdfDoc) : List Char :=
  pdfMetaStream pdf.metadata
    ++ ("COUNT:".toList ++ (toString pdf.pages.length).toList)
    ++ (((List.range pdf.pages.length).zip pdf.pages).map
        (fun ip => pdfPageStream ip.1 ip.2)).flatten

/-- `_hash_pdf_logic` with SHA-256 abstracted as `H`. -/
def hashPdfLogic (H : List Char → List Char) (pdf : PdfDoc) : List Char :=
  H (pdfCanonicalStream pdf)

/-- `stega_pdf.extract`: the metadata value at `/OfficialSignature`, if any. -/
def pdfExtract (pdf : PdfDoc) : Option (List Char) := metaLookup pdf.metadata METADATA_KEY

/-- `metadata_dict[METADATA_KEY] = payload` on a copy of the metadata (dict
semantics: only the resulting key-value map matters to the sorted hash). -/
def metaSet (m : List (List Char × List Char)) (k v : List Char) :
    List (List Char × List Char) :=
  (m.filter (fun p => p.1 ≠ k)) ++ [(k, v)]

/-- `stega_pdf.embed`: copy all pages, copy the metadata with
`/OfficialSignature` set to the envelope. -/
def pdfEmbed (pdf : PdfDoc) (payload : List Char) : PdfDoc :=
  { metadata := metaSet pdf.metadata METADATA_KEY payload, pages := pdf.pages }

/-- The PDF branch of `analyze_file` (extraction via the metadata key;
integrity via exact equality of the logical hash, the `else` branch of the
integrity dispatch). -/
def analyzePdf (H : List Char → List Char) (fs : List Char → Option Nat)
    (rsaVerify : Nat → List Char → List Char → Bool) (pdf : PdfDoc) : Report :=
  match pdfExtract pdf with
  | none => { initReport with message := "No Signature Found".toList }
  | some env =>
    if env.isEmpty then { initReport with message := "No Signature Found".toList }
    else
      match splitEnvelope env with
      | none => { initReport with message := "Malformed Payload".toList }
      | some (raw, sig) =>
        match parsePayload raw with
        | none => { initReport with message := "Malformed Payload".toList }
        | some (d, ts, auth, msg) =>
          let base := { initReport with
            mAuthority := auth
            mTimestamp := ts
            mMessage := msg }
          match fs (getKeyPath auth "public".toList) with
          | none => { base with message := "Unknown Authority: ".toList ++ auth }
          | some pub =>
            if rsaVerify pub raw sig then
              if hashPdfLogic H pdf = d then
                { base with
                  sigCheck := true
                  intCheck := true
                  details := "Content Stream Match".toList
                  status := "verified".toList
                  message := "File is Authentic".toList }
              else
                { base with
                  sigCheck := true
                  intCheck := false
                  details := "Content Tampered".toList
                  status := "tampered".toList
                  message := "Signature valid, but content changed.".toList }
            else
              { base with
                status := "fake".toList
                message := "Invalid Cryptographic Signature".toList }

/-- The PDF path of `process_signing`: apply the visual watermark (modelled as
an arbitrary page transformation — `stamp_pdf` copies the metadata), hash the
stamped document's logical stream, and embed the envelope into the stamped
document's metadata. -/
def processSignPdf (H : List Char → List Char) (fs : List Char → Option Nat)
    (rsaSign : Nat → List Char → List Char) (stamp : List PdfPage → List PdfPage)
    (pdf : PdfDoc) (auth msg ts : List Char) : Option PdfDoc :=
  match fs (getKeyPath auth "private".toList) with
  | none => none
  | some priv =>
    let stamped : PdfDoc := { metadata := pdf.metadata, pages := stamp pdf.pages }
    let payload := hashPdfLogic H stamped ++ ['|'] ++ ts ++ ['|'] ++ auth ++ ['|'] ++ msg
    let envelope := payload ++ SIGSEP ++ rsaSign priv payload
    some (pdfEmbed stamped envelope)

/-! ### Signer primitives: `crypto.sign_payload` / `crypto.verify_signature` -/

/-- The Python exception classes relevant to `verify_signature`'s handler
(`binascii.Error`, raised by `b64decode`, is a `ValueError` subclass). -/
inductive PyExc
  | invalidSignature
  | valueError
  | typeError
  | otherExc
deriving DecidableEq

/-- The classes caught by `verify_signature`'s `except` clause:
`(InvalidSignature, ValueError, TypeError)`. -/
def caughtByVerify : PyExc → Bool
  | .invalidSignature => true
  | .valueError => true
  | .typeError => true
  | .otherExc => false

/-- `verify_signature`, with library primitives abstracted: `b64dec` models
`base64.b64decode`, `enc` models `str.encode("utf-8")`, `keyVerify` models
`public_key.verify` (unit on success, an exception otherwise); the
`try/except` yields `False` exactly on the caught classes and re-raises
anything else. -/
def verifySignatureM (b64dec : List Char → Except PyExc (List Nat))
    (enc : List Char → Except PyExc (List Nat))
    (keyVerify : Nat → List Nat → List Nat → Except PyExc Unit)
    (pub : Nat) (payload sigB64 : List Char) : Except PyExc Bool :=
  match b64dec sigB64 with
  | .error e => if caughtByVerify e then .ok false else .error e
  | .ok sb =>
    match enc payload with
    | .error e => if caughtByVerify e then .ok false else .error e
    | .ok pb =>
      match keyVerify pub sb pb with
      | .error e => if caughtByVerify e then .ok false else .error e
      | .ok _ => .ok true

/-- `sign_payload`, abstracted: the base64 encoding of the RSA-PSS signature
over the UTF-8 payload bytes (`encTotal` is the total encoding used on the
signing side). -/
def signPayloadM (b64enc : List Nat → List Char) (rsaSignRaw : Nat → List Nat → List Nat)
    (encTotal : List Char → List Nat) (priv : Nat) (payload : List Char) : List Char :=
  b64enc (rsaSignRaw priv (encTotal payload))

/-- A concrete injective digest used by witnesses and counterexamples in place
of SHA-256: the decimal digits of a positional encoding of the content
(always nonempty and alphanumeric, like a hex digest). -/
def natEncode (l : List Char) : Nat := l.foldl (fun acc c => acc * 1114112 + c.toNat) 1

/-- Decimal-digit digest function for witnesses. -/
def H0 (l : List Char) : List Char := Nat.toDigits 10 (natEncode l)

/-- C9 counterexample: the key path computed for authority "Gov of X"
preserves case — `keys/Gov_of_X_public.pem` — so it is not the claimed
lowercased `keys/gov_of_x_public.pem`. -/
theorem C9_counterexample :
    getKeyPath "Gov of X".toList "public".toList = "keys/Gov_of_X_public.pem".toList ∧
    getKeyPath "Gov of X".toList "public".toList ≠ "keys/gov_of_x_public.pem".toList := by
  exact ⟨by decide, by decide⟩

/-- C9 (amended): the key-store path is `keys/` followed by the authority name
with every non-alphanumeric character replaced by an underscore and case
PRESERVED (no lowercasing), then `_public.pem` / `_private.pem`; in
particular "Gov of X" maps to `keys/Gov_of_X_public.pem`, and a missing
public-key file fails with a `FileNotFoundError` whose message carries that
sanitized path. -/
theorem C9_amended (name : List Char) (fs : List Char → Option Nat)
    (hmiss : fs (getKeyPath name "public".toList) = none) :
    getKeyPath name "public".toList =
      "keys/".toList ++ name.map (fun c => if c.isAlphanum then c else '_')
        ++ "_public.pem".toList ∧
    (sanitizeName name).length = name.length ∧
    (∀ c ∈ sanitizeName name, c.isAlphanum ∨ c = '_') ∧
    loadPublicKey fs name =
      Except.error ("Public key not found at ".toList
        ++ getKeyPath name "public".toList ++ ".".toList) := by
  refine ⟨?_, ?_, ?_, ?_⟩
  · have hconst : "_".toList ++ ("public".toList ++ ".pem".toList) = "_public.pem".toList := by
      decide
    simp only [getKeyPath, sanitizeName, List.append_assoc]
    rw [hconst]
  · simp [sanitizeName]
  · intro c hc
    simp only [sanitizeName, List.mem_map] at hc
    obtain ⟨a, _, ha⟩ := hc
    by_cases h : a.isAlphanum
    · left; rw [← ha]; simp [h]
    · right; rw [← ha]; simp [h]
  · rw [loadPublicKey, hmiss]

/-- Witness for C9 (amended) at the authority "Gov of X" and an empty key
directory. -/
theorem C9_amended_witness :
    ((fun _ : List Char => (none : Option Nat))
        (getKeyPath "Gov of X".toList "public".toList) = none) ∧
    loadPublicKey (fun _ => none) "Gov of X".toList =
      Except.error ("Public key not found at ".toList
        ++ getKeyPath "Gov of X".toList "public".toList ++ ".".toList) :=
  ⟨rfl, (C9_amended "Gov of X".toList (fun _ => none) rfl).2.2.2⟩

/-- C6 counterexample: analyzing a plain text file that bears no envelope
yields status "error" (with message "No Signature Found"), not the claimed
verdict "unsigned". -/
theorem C6_counterexample :
    (analyzeText H0 (fun _ => none) (fun _ _ _ => true) "hello world\n".toList).status
        = "error".toList ∧
    (analyzeText H0 (fun _ => none) (fun _ _ _ => true) "hello world\n".toList).message
        = "No Signature Found".toList ∧
    "error".toList ≠ "unsigned".toList := by
  exact ⟨by decide, by decide, by decide⟩

/-- C6 (amended): for every input (text or PDF) from which no envelope can be
extracted, the report keeps the initial status "error" and gets message
"No Signature Found"; there is no "unsigned" status in the pipeline. -/
theorem C6_amended (H : List Char → List Char) (fs : List Char → Option Nat)
    (rv : Nat → List Char → List Char → Bool) (file : List Char) (pdf : PdfDoc)
    (htext : textExtract (univNL file) = none) (hpdf : pdfExtract pdf = none) :
    (analyzeText H fs rv file).status = "error".toList ∧
    (analyzeText H fs rv file).message = "No Signature Found".toList ∧
    (analyzePdf H fs rv pdf).status = "error".toList ∧
    (analyzePdf H fs rv pdf).message = "No Signature Found".toList := by
  unfold analyzeText analyzePdf
  rw [htext, hpdf]
  exact ⟨rfl, rfl, rfl, rfl⟩

/-- Witness for C6 (amended) at a concrete unsigned text file and an
unsigned PDF. -/
theorem C6_amended_witness :
    textExtract (univNL "plain text".toList) = none ∧
    pdfExtract ⟨[], []⟩ = none ∧
    (analyzeText H0 (fun _ => none) (fun _ _ _ => true) "plain text".toList).status
      = "error".toList := by
  refine ⟨by decide, rfl, ?_⟩
  exact (C6_amended H0 (fun _ => none) (fun _ _ _ => true) "plain text".toList ⟨[], []⟩
    (by decide) rfl).1

/-- All occurrence indices of `p` in `l`. -/
def occIdxs (p l : List Char) : List Nat :=
  (List.range (l.length + 1)).filter (fun i => p.isPrefixOf (l.drop i))

/-- C10's claimed semantics, read literally: the whitespace-trimmed text
between the LAST header occurrence and the first footer occurrence within
that final segment, `None` when no footer follows the last occurrence. -/
def claimExtract (content : List Char) : Option (List Char) :=
  match (occIdxs HEADER content).getLast? with
  | none => none
  | some i =>
    if containsSeq FOOTER (content.drop (i + HEADER.length)) then
      some (pyStrip (headPartOf FOOTER (content.drop (i + HEADER.length))))
    else none

/-- A file on which the code's split-based extraction differs from the
last-occurrence description: two header occurrences overlap in one newline. -/
def C10input : List Char :=
  ("\n\n-----BEGIN OFFICIAL SIGNATURE-----\n\n-----BEGIN OFFICIAL SIGNATURE-----\nPAYLOAD"
    ++ "\n-----END OFFICIAL SIGNATURE-----").toList

/-- C10 counterexample: on `C10input` (whose two header occurrences overlap
by one newline) the code returns the text after the first greedy header
match, while the claim's last-occurrence reading returns only "PAYLOAD". -/
theorem C10_counterexample :
    textExtract C10input = some "-----BEGIN OFFICIAL SIGNATURE-----\nPAYLOAD".toList ∧
    claimExtract C10input = some "PAYLOAD".toList ∧
    textExtract C10input ≠ claimExtract C10input := by
  exact ⟨by decide, by decide, by decide⟩

/-- C10 (amended): extraction uses the FINAL fragment of the greedy
left-to-right non-overlapping split on the header — a suffix that is preceded
by a header match and contains no further match (this differs from "the last
header occurrence" exactly when occurrences overlap); within that fragment it
returns the whitespace-trimmed text before the first footer, `None` when no
footer occurs there, and `None` when the header does not occur at all. -/
theorem C10_amended (content : List Char) :
    (¬ Occurs HEADER content → textExtract content = none) ∧
    (Occurs HEADER content →
      (∃ pre, content = pre ++ HEADER ++ lastPartOf HEADER content) ∧
      ¬ Occurs HEADER (lastPartOf HEADER content) ∧
      (containsSeq FOOTER (lastPartOf HEADER content) = true →
        textExtract content =
          some (pyStrip (headPartOf FOOTER (lastPartOf HEADER content)))) ∧
      (containsSeq FOOTER (lastPartOf HEADER content) = false →
        textExtract content = none)) := by
  constructor
  · intro hno
    have hc : containsSeq HEADER content = false := by
      rw [occurs_iff_containsSeq] at hno
      cases h : containsSeq HEADER content
      · rfl
      · exact absurd h hno
    simp [textExtract, hc]
  · intro hocc
    have hc : containsSeq HEADER content = true := occurs_iff_containsSeq.mp hocc
    obtain ⟨⟨pre, hpre⟩, hnomore⟩ :=
      @lastPart_decomp HEADER (by decide) content hocc
    refine ⟨⟨pre, hpre⟩, hnomore, ?_, ?_⟩
    · intro hf
      simp [textExtract, hc, hf]
    · intro hf
      simp [textExtract, hc, hf]

/-- Witness for C10 (amended) at `C10input`. -/
theorem C10_amended_witness :
    Occurs HEADER C10input ∧
    textExtract C10input =
      some (pyStrip (headPartOf FOOTER (lastPartOf HEADER C10input))) := by
  have hocc : Occurs HEADER C10input := occurs_iff_containsSeq.mpr (by decide)
  exact ⟨hocc, ((C10_amended C10input).2 hocc).2.2.1 (by decide)⟩

/-- The report produced by the text branch when both checks pass. -/
def verifiedTextReport (auth ts msg : List Char) : Report :=
  { initReport with
    mAuthority := auth
    mTimestamp := ts
    mMessage := msg
    sigCheck := true
    intCheck := true
    details := "Exact Match".toList
    status := "verified".toList
    message := "File is Authentic".toList }

/-- The report produced by the text branch when the signature passes but the
integrity comparison fails. -/
def tamperedTextReport (auth ts msg : List Char) : Report :=
  { initReport with
    mAuthority := auth
    mTimestamp := ts
    mMessage := msg
    sigCheck := true
    intCheck := false
    details := "Content Modified".toList
    status := "tampered".toList
    message := "Signature valid, but content changed.".toList }

theorem analyzeText_reduce (H : List Char → List Char) (fs : List Char → Option Nat)
    (rv : Nat → List Char → List Char → Bool)
    (file env raw sig d ts auth msg : List Char) (pub : Nat)
    (hex : textExtract (univNL file) = some env) (hne : env ≠ [])
    (hsplit : splitEnvelope env = some (raw, sig))
    (hparse : parsePayload raw = some (d, ts, auth, msg))
    (hkey : fs (getKeyPath auth "public".toList) = some pub)
    (hsig : rv pub raw sig = true) :
    analyzeText H fs rv file =
      if d ∈ textHashList H file then verifiedTextReport auth ts msg
      else tamperedTextReport auth ts msg := by
  have hie : env.isEmpty = false := by cases env <;> simp_all
  unfold analyzeText
  rw [hex]
  simp only [hie, Bool.false_eq_true, if_false, hsplit, hparse, hkey, hsig, if_true]
  split <;> rfl

/-- C8 (amended): text verification computes exactly three digests of the
content with the signature block stripped by the byte-level header regex —
the stripped bytes as-is, those bytes with CRLF replaced by LF, and the
LF-normalized bytes with LF replaced by CRLF (sequentially, not the raw
stripped bytes) — and, once the signature check passes, the verdict is
`verified` iff the signed hash equals one of the three, `tampered`
otherwise. -/
theorem C8_amended (H : List Char → List Char) (fs : List Char → Option Nat)
    (rv : Nat → List Char → List Char → Bool)
    (file env raw sig d ts auth msg : List Char) (pub : Nat)
    (hex : textExtract (univNL file) = some env) (hne : env ≠ [])
    (hsplit : splitEnvelope env = some (raw, sig))
    (hparse : parsePayload raw = some (d, ts, auth, msg))
    (hkey : fs (getKeyPath auth "public".toList) = some pub)
    (hsig : rv pub raw sig = true) :
    textHashList H file =
      [H (strippedOriginal file),
       H (replaceSeq CRLF LF (strippedOriginal file)),
       H (replaceSeq LF CRLF (replaceSeq CRLF LF (strippedOriginal file)))] ∧
    ((analyzeText H fs rv file).status = "verified".toList ↔ d ∈ textHashList H file) ∧
    ((analyzeText H fs rv file).status = "tampered".toList ↔ d ∉ textHashList H file) := by
  have hred := analyzeText_reduce H fs rv file env raw sig d ts auth msg pub
    hex hne hsplit hparse hkey hsig
  refine ⟨rfl, ?_, ?_⟩
  · rw [hred]
    by_cases hmem : d ∈ textHashList H file
    · rw [if_pos hmem]
      exact ⟨fun _ => hmem, fun _ => rfl⟩
    · rw [if_neg hmem]
      constructor
      · intro hcontra
        have hx : "tampered".toList = "verified".toList := hcontra
        exact absurd hx (by decide)
      · intro harg
        exact absurd harg hmem
  · rw [hred]
    by_cases hmem : d ∈ textHashList H file
    · rw [if_pos hmem]
      constructor
      · intro hcontra
        have hx : "verified".toList = "tampered".toList := hcontra
        exact absurd hx (by decide)
      · intro harg
        exact absurd hmem harg
    · rw [if_neg hmem]
      exact ⟨fun _ => hmem, fun _ => rfl⟩

/-- A concrete signed text file (digest `D`, timestamp `T`, authority `A`,
message `M`, signature `S`). -/
def C8file : List Char :=
  ("hello" ++ "\n\n-----BEGIN OFFICIAL SIGNATURE-----\nD|T|A|M||SIG||S"
    ++ "\n-----END OFFICIAL SIGNATURE-----").toList

/-- Witness for C8 (amended) at `C8file` with concrete library
instantiations. -/
theorem C8_amended_witness :
    textExtract (univNL C8file) = some "D|T|A|M||SIG||S".toList ∧
    textHashList H0 C8file =
      [H0 (strippedOriginal C8file),
       H0 (replaceSeq CRLF LF (strippedOriginal C8file)),
       H0 (replaceSeq LF CRLF (replaceSeq CRLF LF (strippedOriginal C8file)))] := by
  refine ⟨by decide, ?_⟩
  exact (C8_amended H0 (fun _ => some 0) (fun _ _ _ => true) C8file
    "D|T|A|M||SIG||S".toList "D|T|A|M".toList "S".toList
    "D".toList "T".toList "A".toList "M".toList 0
    (by decide) (by decide) (by decide) (by decide) rfl rfl).1

/-- C8 counterexample: on a stripped content containing a CRLF the code's
third digest (computed from the LF-normalized bytes) differs from the
claim's third digest (computed from the stripped bytes directly). -/
theorem C8_counterexample :
    textHashList H0
        (("a\r\nb" ++ "\n\n-----BEGIN OFFICIAL SIGNATURE-----\nX"
          ++ "\n-----END OFFICIAL SIGNATURE-----").toList) ≠
      claimTextHashList H0
        (("a\r\nb" ++ "\n\n-----BEGIN OFFICIAL SIGNATURE-----\nX"
          ++ "\n-----END OFFICIAL SIGNATURE-----").toList) := by
  decide

/-- The already-signed text file used as C3's failing input. -/
def C3oldFile : List Char :=
  ("hello world" ++ "\n\n-----BEGIN OFFICIAL SIGNATURE-----\nX|T|A|M||SIG||S"
    ++ "\n-----END OFFICIAL SIGNATURE-----").toList

/-- C3's failing input re-signed: the output of the text signing path on the
already-signed `C3oldFile` (concrete library instantiations). -/
def C3resigned : List Char :=
  (processSignText H0 (fun _ => some 0) (fun _ _ => "SIGB".toList) C3oldFile
    "A".toList "M".toList "T".toList).getD []

set_option maxRecDepth 100000 in
/-- C3: evaluating the pipeline at the failing input. Re-signing an
already-signed text file yields a report with status "tampered", because
`process_signing` hashes the whole old file (old signature block included)
while verification hashes the stripped content — refuting the claimed
Verified. The output does contain exactly one signature block (the greedy
header split has exactly two fragments). -/
theorem C3_resign_tampered :
    (analyzeText H0 (fun _ => some 0) (fun _ _ _ => true) C3resigned).status
        = "tampered".toList ∧
    (splitOnSeq HEADER C3resigned).length = 2 := by
  exact ⟨by decide, by decide⟩

theorem metaLookup_isSome_iff {m : List (List Char × List Char)} {k : List Char} :
    (metaLookup m k).isSome = true ↔ k ∈ m.map Prod.fst := by
  induction m with
  | nil => simp [metaLookup]
  | cons a t ih =>
    obtain ⟨ka, va⟩ := a
    simp only [metaLookup, List.map_cons, List.mem_cons]
    by_cases h : ka = k
    · subst h; simp
    · rw [if_neg h, ih]
      constructor
      · intro hm; exact Or.inr hm
      · rintro (hm | hm)
        · exact absurd hm.symm h
        · exact hm

theorem metaLookup_filter_ne {m : List (List Char × List Char)} {k k' : List Char}
    (h : k' ≠ k) :
    metaLookup (m.filter (fun p => p.1 ≠ k)) k' = metaLookup m k' := by
  induction m with
  | nil => rfl
  | cons a t ih =>
    obtain ⟨ka, va⟩ := a
    by_cases hka : ka = k
    · subst hka
      have hne2 : ¬ ka = k' := fun he => h he.symm
      rw [List.filter_cons, if_neg (by simp)]
      rw [ih]
      simp only [metaLookup]
      rw [if_neg hne2]
    · rw [List.filter_cons, if_pos (by simpa using hka)]
      simp only [metaLookup, ih]

theorem metaLookup_metaSet_ne {m : List (List Char × List Char)} {k v k' : List Char}
    (h : k' ≠ k) : metaLookup (metaSet m k v) k' = metaLookup m k' := by
  unfold metaSet
  have happ : ∀ (xs ys : List (List Char × List Char)),
      metaLookup (xs ++ ys) k' =
        match metaLookup xs k' with
        | some v => some v
        | none => metaLookup ys k' := by
    intro xs ys
    induction xs with
    | nil => simp [metaLookup]
    | cons a t ih =>
      obtain ⟨ka, va⟩ := a
      by_cases hka : ka = k' <;> simp [metaLookup, hka, ih]
  rw [happ, metaLookup_filter_ne h]
  cases hl : metaLookup m k' with
  | some v' => rfl
  | none =>
    simp only [metaLookup]
    rw [if_neg (fun he => h he.symm)]

theorem metaSet_keys_nodup {m : List (List Char × List Char)} {k v : List Char}
    (h : (m.map Prod.fst).Nodup) : ((metaSet m k v).map Prod.fst).Nodup := by
  unfold metaSet
  rw [List.map_append]
  apply List.Nodup.append
  · exact h.sublist ((List.filter_sublist m).map Prod.fst)
  · simp
  · intro a ha hb
    simp only [List.map_cons, List.map_nil, List.mem_singleton] at hb
    subst hb
    simp only [List.mem_map] at ha
    obtain ⟨p, hp, hpa⟩ := ha
    have := List.of_mem_filter hp
    simp only [decide_eq_true_eq] at this
    exact this hpa

theorem pdfMetaStream_congr {m1 m2 : List (List Char × List Char)}
    (hn1 : (m1.map Prod.fst).Nodup) (hn2 : (m2.map Prod.fst).Nodup)
    (hagree : ∀ k, k ≠ METADATA_KEY → metaLookup m1 k = metaLookup m2 k) :
    pdfMetaStream m1 = pdfMetaStream m2 := by
  unfold pdfMetaStream
  have hmem : ∀ k, k ≠ METADATA_KEY → (k ∈ m1.map Prod.fst ↔ k ∈ m2.map Prod.fst) := by
    intro k hk
    rw [← metaLookup_isSome_iff, ← metaLookup_isSome_iff, hagree k hk]
  have hSorted1 : List.Sorted (· ≤ ·)
      (((m1.map Prod.fst).insertionSort (· ≤ ·)).filter (fun k => k ≠ METADATA_KEY)) :=
    (List.sorted_insertionSort _ _).filter _
  have hSorted2 : List.Sorted (· ≤ ·)
      (((m2.map Prod.fst).insertionSort (· ≤ ·)).filter (fun k => k ≠ METADATA_KEY)) :=
    (List.sorted_insertionSort _ _).filter _
  have hNd1 : (((m1.map Prod.fst).insertionSort (· ≤ ·)).filter
      (fun k => k ≠ METADATA_KEY)).Nodup :=
    ((List.perm_insertionSort _ _).symm.nodup hn1).filter _
  have hNd2 : (((m2.map Prod.fst).insertionSort (· ≤ ·)).filter
      (fun k => k ≠ METADATA_KEY)).Nodup :=
    ((List.perm_insertionSort _ _).symm.nodup hn2).filter _
  have hperm : List.Perm
      (((m1.map Prod.fst).insertionSort (· ≤ ·)).filter (fun k => k ≠ METADATA_KEY))
      (((m2.map Prod.fst).insertionSort (· ≤ ·)).filter (fun k => k ≠ METADATA_KEY)) := by
    rw [List.perm_ext_iff_of_nodup hNd1 hNd2]
    intro a
    simp only [List.mem_filter, decide_eq_true_eq]
    constructor
    · rintro ⟨hs, hne⟩
      exact ⟨(List.perm_insertionSort _ _).mem_iff.mpr
          ((hmem a hne).mp ((List.perm_insertionSort _ _).mem_iff.mp hs)), hne⟩
    · rintro ⟨hs, hne⟩
      exact ⟨(List.perm_insertionSort _ _).mem_iff.mpr
          ((hmem a hne).mpr ((List.perm_insertionSort _ _).mem_iff.mp hs)), hne⟩
  have heq := List.eq_of_perm_of_sorted hperm hSorted1 hSorted2
  rw [heq]
  apply congrArg List.flatten
  apply List.map_congr_left
  intro k hk
  have hne : k ≠ METADATA_KEY := by
    have := (List.mem_filter.mp hk).2
    simpa using this
  rw [hagree k hne]

/-- C5: the PDF logical hash ignores the `/OfficialSignature` metadata key:
two documents identical except for the presence or value of that key
canonicalize to the same hashed byte stream (hence equal logical hashes for
any digest function), and embedding the signature envelope does not change
the logical hash that was signed. -/
theorem C5_pdf_hash_ignores_signature (H : List Char → List Char) (p1 p2 pdf : PdfDoc)
    (env : List Char)
    (hpages : p1.pages = p2.pages)
    (hn1 : (p1.metadata.map Prod.fst).Nodup) (hn2 : (p2.metadata.map Prod.fst).Nodup)
    (hagree : ∀ k, k ≠ METADATA_KEY → metaLookup p1.metadata k = metaLookup p2.metadata k)
    (hn : (pdf.metadata.map Prod.fst).Nodup) :
    pdfCanonicalStream p1 = pdfCanonicalStream p2 ∧
    hashPdfLogic H p1 = hashPdfLogic H p2 ∧
    hashPdfLogic H (pdfEmbed pdf env) = hashPdfLogic H pdf := by
  have hstream : pdfCanonicalStream p1 = pdfCanonicalStream p2 := by
    unfold pdfCanonicalStream
    rw [pdfMetaStream_congr hn1 hn2 hagree, hpages]
  have hs2 : pdfCanonicalStream (pdfEmbed pdf env) = pdfCanonicalStream pdf := by
    unfold pdfCanonicalStream
    have hpg : (pdfEmbed pdf env).pages = pdf.pages := rfl
    rw [hpg]
    have hm : pdfMetaStream (pdfEmbed pdf env).metadata = pdfMetaStream pdf.metadata := by
      apply pdfMetaStream_congr (metaSet_keys_nodup hn) hn
      intro k hk
      exact metaLookup_metaSet_ne hk
    rw [hm]
  exact ⟨hstream, congrArg H hstream, congrArg H hs2⟩

/-- Witness for C5 at two concrete one-page documents differing only in the
`/OfficialSignature` entry. -/
theorem C5_witness :
    pdfCanonicalStream
        ⟨[("/Author".toList, "a".toList), (METADATA_KEY, "old".toList)],
         [⟨[['x']], []⟩]⟩ =
      pdfCanonicalStream ⟨[("/Author".toList, "a".toList)], [⟨[['x']], []⟩]⟩ := by
  apply (C5_pdf_hash_ignores_signature H0
    ⟨[("/Author".toList, "a".toList), (METADATA_KEY, "old".toList)], [⟨[['x']], []⟩]⟩
    ⟨[("/Author".toList, "a".toList)], [⟨[['x']], []⟩]⟩
    ⟨[], []⟩ [] rfl (by decide) (by decide) ?_ (by decide)).1
  intro k hk
  simp only [metaLookup]
  split_ifs with h1 h2
  · rfl
  · exact absurd h2.symm hk
  · rfl

/-- C4: `verify_signature` is total — for any behaviour of the library
primitives that raises only the caught classes (`InvalidSignature`,
`ValueError` incl. `binascii.Error`, `TypeError`), it returns a boolean and
never propagates an exception; any structural malformation (bad base64, or a
failing `public_key.verify`, which covers bad signatures and size mismatches)
yields `False`; and a genuine signature produced by `sign_payload` with the
matching private key over the same payload yields `True`. -/
theorem C4_verify_total_and_correct
    (b64dec : List Char → Except PyExc (List Nat))
    (enc : List Char → Except PyExc (List Nat))
    (keyVerify : Nat → List Nat → List Nat → Except PyExc Unit)
    (b64enc : List Nat → List Char) (rsaSignRaw : Nat → List Nat → List Nat)
    (encTotal : List Char → List Nat)
    (hdec : ∀ s e, b64dec s = .error e → caughtByVerify e = true)
    (henc : ∀ s e, enc s = .error e → caughtByVerify e = true)
    (hkv : ∀ p sb pb e, keyVerify p sb pb = .error e → caughtByVerify e = true) :
    (∀ pub payload sigB64, ∃ b : Bool,
        verifySignatureM b64dec enc keyVerify pub payload sigB64 = .ok b) ∧
    (∀ pub payload sigB64 e, b64dec sigB64 = .error e →
        verifySignatureM b64dec enc keyVerify pub payload sigB64 = .ok false) ∧
    (∀ pub payload sigB64 sb pb e, b64dec sigB64 = .ok sb → enc payload = .ok pb →
        keyVerify pub sb pb = .error e →
        verifySignatureM b64dec enc keyVerify pub payload sigB64 = .ok false) ∧
    (∀ priv pub payload,
        b64dec (signPayloadM b64enc rsaSignRaw encTotal priv payload)
          = .ok (rsaSignRaw priv (encTotal payload)) →
        enc payload = .ok (encTotal payload) →
        keyVerify pub (rsaSignRaw priv (encTotal payload)) (encTotal payload) = .ok () →
        verifySignatureM b64dec enc keyVerify pub payload
          (signPayloadM b64enc rsaSignRaw encTotal priv payload) = .ok true) := by
  refine ⟨?_, ?_, ?_, ?_⟩
  · intro pub payload sigB64
    cases hb : b64dec sigB64 with
    | error e => exact ⟨false, by simp [verifySignatureM, hb, hdec _ _ hb]⟩
    | ok sb =>
      cases he2 : enc payload with
      | error e => exact ⟨false, by simp [verifySignatureM, hb, he2, henc _ _ he2]⟩
      | ok pb =>
        cases hk : keyVerify pub sb pb with
        | error e =>
          exact ⟨false, by simp [verifySignatureM, hb, he2, hk, hkv _ _ _ _ hk]⟩
        | ok u => exact ⟨true, by simp [verifySignatureM, hb, he2, hk]⟩
  · intro pub payload sigB64 e hb
    simp [verifySignatureM, hb, hdec _ _ hb]
  · intro pub payload sigB64 sb pb e h1 h2 h3
    simp [verifySignatureM, h1, h2, h3, hkv _ _ _ _ h3]
  · intro priv pub payload h1 h2 h3
    simp [verifySignatureM, h1, h2, h3]

/-- Witness for C4 with concrete total primitives. -/
theorem C4_witness :
    (∃ b : Bool, verifySignatureM (fun _ => .ok []) (fun _ => .ok [])
        (fun _ _ _ => .ok ()) 0 "p".toList "s".toList = .ok b) ∧
    verifySignatureM (fun _ => .ok []) (fun _ => .ok []) (fun _ _ _ => .ok ()) 0
        "p".toList
        (signPayloadM (fun _ => "SIG".toList) (fun _ _ => []) (fun _ => []) 0 "p".toList)
      = .ok true := by
  have h := C4_verify_total_and_correct (fun _ => .ok []) (fun _ => .ok [])
    (fun _ _ _ => .ok ()) (fun _ => "SIG".toList) (fun _ _ => []) (fun _ => [])
    (fun s e he => by simp at he) (fun s e he => by simp at he)
    (fun p sb pb e he => by simp at he)
  exact ⟨h.1 0 "p".toList "s".toList, h.2.2.2 0 0 "p".toList rfl rfl rfl⟩

/-! ### C2: round-trip infrastructure — occurrence boundary lemmas -/

theorem isPrefixOf_of_append_left {p q l : List Char} (h : (p ++ q).isPrefixOf l = true) :
    p.isPrefixOf l = true := by
  obtain ⟨t, ht⟩ := isPrefixOf_iff_exists.mp h
  exact isPrefixOf_iff_exists.mpr ⟨q ++ t, by rw [ht]; simp⟩

theorem isPrefixOf_mem {p l : List Char} (h : p.isPrefixOf l = true) : ∀ c ∈ p, c ∈ l := by
  obtain ⟨t, ht⟩ := isPrefixOf_iff_exists.mp h
  intro c hc
  rw [ht]
  exact List.mem_append_left _ hc

theorem occurs_cons_iff {p : List Char} {a : Char} {t : List Char} :
    Occurs p (a :: t) ↔ p.isPrefixOf (a :: t) = true ∨ Occurs p t := by
  constructor
  · rintro ⟨i, hi⟩
    cases i with
    | zero => exact Or.inl hi
    | succ n => exact Or.inr ⟨n, by simpa using hi⟩
  · rintro (h | ⟨i, hi⟩)
    · exact ⟨0, h⟩
    · exact ⟨i + 1, by simpa using hi⟩

theorem head?_append_left {x y : List Char} (hx : x ≠ []) : (x ++ y).head? = x.head? := by
  rw [List.head?_append]
  cases x with
  | nil => exact absurd rfl hx
  | cons a t => rfl

theorem getLast?_append_right {x y : List Char} (hy : y ≠ []) :
    (x ++ y).getLast? = y.getLast? := by
  rw [List.getLast?_append]
  cases hg : y.getLast? with
  | none => exact absurd (List.getLast?_eq_none_iff.mp hg) hy
  | some c => rfl

theorem occurs_mono_prefix {p q l : List Char} (hpq : ∃ r, q = p ++ r) (h : Occurs q l) :
    Occurs p l := by
  obtain ⟨r, hr⟩ := hpq
  obtain ⟨i, hi⟩ := h
  exact ⟨i, isPrefixOf_of_append_left (hr ▸ hi)⟩

theorem drop_append_ge {x y : List Char} {i : Nat} (h : x.length ≤ i) :
    (x ++ y).drop i = y.drop (i - x.length) := by
  conv_lhs => rw [show i = x.length + (i - x.length) from by omega, ← List.drop_drop,
    drop_boundary]

theorem occurs_pair_append {c1 c2 : Char} {x y : List Char}
    (h : Occurs [c1, c2] (x ++ y)) :
    Occurs [c1, c2] x ∨ Occurs [c1, c2] y ∨
      (x.getLast? = some c1 ∧ y.head? = some c2) := by
  obtain ⟨i, hi⟩ := h
  by_cases hix : i < x.length
  · rw [List.drop_append_of_le_length (by omega)] at hi
    rcases isPrefixOf_append_cases hi with hl | ⟨s, hs, hsy⟩
    · exact Or.inl ⟨i, hl⟩
    · cases hxd : x.drop i with
      | nil =>
        have := congrArg List.length hxd
        simp only [List.length_drop, List.length_nil] at this
        omega
      | cons d ds =>
        rw [hxd] at hs
        cases ds with
        | nil =>
          have hd : d = c1 := by
            simpa using (congrArg (List.head? ·) hs).symm
          have hgl : x.getLast? = some d := by
            conv_lhs => rw [← List.take_append_drop i x]
            rw [getLast?_append_right (by rw [hxd]; simp), hxd]
            rfl
          have hsc : s = [c2] := by
            have := congrArg (List.tail ·) hs
            simpa using this.symm
          obtain ⟨t', ht'⟩ := isPrefixOf_iff_exists.mp hsy
          refine Or.inr (Or.inr ⟨hd ▸ hgl, ?_⟩)
          rw [ht', hsc]
          rfl
        | cons e es =>
          simp only [List.cons_append, List.cons.injEq] at hs
          obtain ⟨hc1, hc2, hrest⟩ := hs
          have hes : es ++ s = [] := hrest.symm
          have hes2 : es = [] := by
            cases es with
            | nil => rfl
            | cons _ _ => simp at hes
          refine Or.inl ⟨i, ?_⟩
          apply isPrefixOf_iff_exists.mpr
          refine ⟨[], ?_⟩
          rw [hxd, hes2, ← hc1, ← hc2]
          rfl
  · push_neg at hix
    rw [drop_append_ge hix] at hi
    exact Or.inr (Or.inl ⟨i - x.length, hi⟩)

theorem no_early_by_head {p x y : List Char} {c : Char} (hp : p.head? = some c)
    (hc : c ∉ x) : ∀ j < x.length, ¬ p.isPrefixOf ((x ++ y).drop j) = true := by
  intro j hj hpre
  rw [List.drop_append_of_le_length (by omega)] at hpre
  obtain ⟨t, ht⟩ := isPrefixOf_iff_exists.mp hpre
  cases hxd : x.drop j with
  | nil =>
    have := congrArg List.length hxd
    simp only [List.length_drop, List.length_nil] at this
    omega
  | cons d ds =>
    cases p with
    | nil => simp at hp
    | cons pc pt =>
      have hpc : pc = c := by simpa using hp
      rw [hxd] at ht
      have hd : d = pc := by simpa using congrArg (List.head? ·) ht
      have hdm : d ∈ x := List.mem_of_mem_drop (hxd ▸ List.mem_cons_self d ds)
      exact hc (hpc ▸ hd ▸ hdm)

theorem pair_no_early {c1 c2 : Char} {pr x z : List Char}
    (hnd : ¬ Occurs [c1, c2] x) (hlast : x.getLast? ≠ some c1) :
    ∀ j < x.length, ¬ (c1 :: c2 :: pr).isPrefixOf ((x ++ z).drop j) = true := by
  intro j hj hpre
  have hp2 : [c1, c2].isPrefixOf ((x ++ z).drop j) = true :=
    isPrefixOf_of_append_left (p := [c1, c2]) (q := pr) hpre
  rw [List.drop_append_of_le_length (by omega)] at hp2
  rcases isPrefixOf_append_cases hp2 with hl | ⟨s, hs, hsz⟩
  · exact hnd ⟨j, hl⟩
  · cases hxd : x.drop j with
    | nil =>
      have := congrArg List.length hxd
      simp only [List.length_drop, List.length_nil] at this
      omega
    | cons d ds =>
      rw [hxd] at hs
      cases ds with
      | nil =>
        have hd : d = c1 := by
          simpa using (congrArg (List.head? ·) hs).symm
        have hgl : x.getLast? = some d := by
          conv_lhs => rw [← List.take_append_drop j x]
          rw [getLast?_append_right (by rw [hxd]; simp), hxd]
          rfl
        exact hlast (hd ▸ hgl)
      | cons e es =>
        simp only [List.cons_append, List.cons.injEq] at hs
        obtain ⟨hc1, hc2, hrest⟩ := hs
        have hes : es = [] := by
          cases es with
          | nil => rfl
          | cons _ _ => simp at hrest
        apply hnd
        refine ⟨j, isPrefixOf_iff_exists.mpr ⟨[], ?_⟩⟩
        rw [hxd, hes, ← hc1, ← hc2]
        rfl

/-! ### C2: newline normalization lemmas -/

theorem replaceCRLF_of_noCR {l : List Char} (h : '\r' ∉ l) :
    replaceSeq CRLF LF l = l :=
  replaceSeq_of_none (not_occurs_iff_firstOccIdx_none.mp (not_occurs_of_head_not_mem h))

theorem replaceCR_of_noCR {l : List Char} (h : '\r' ∉ l) :
    replaceSeq ['\r'] ['\n'] l = l :=
  replaceSeq_of_none (firstOccIdx_single_not_mem h)

theorem univNL_of_noCR {l : List Char} (h : '\r' ∉ l) : univNL l = l := by
  unfold univNL
  rw [replaceCRLF_of_noCR h, replaceCR_of_noCR h]

theorem replaceCRLF_cons_cr (t : List Char) :
    replaceSeq CRLF LF ('\r' :: '\n' :: t) = '\n' :: replaceSeq CRLF LF t := by
  have h := @replaceSeq_head_match CRLF LF t (by decide)
  simpa [CRLF, LF] using h

theorem replaceCRLF_cons_ne {c : Char} (hc : c ≠ '\r') (t : List Char) :
    replaceSeq CRLF LF (c :: t) = c :: replaceSeq CRLF LF t := by
  apply replaceSeq_cons_of_not (by decide)
  intro hpre
  obtain ⟨t', ht'⟩ := isPrefixOf_iff_exists.mp hpre
  exact hc (by simpa [CRLF] using congrArg (List.head? ·) ht')

theorem replaceLF_cons_lf (t : List Char) :
    replaceSeq LF CRLF ('\n' :: t) = '\r' :: '\n' :: replaceSeq LF CRLF t := by
  have h := @replaceSeq_head_match LF CRLF t (by decide)
  simpa [CRLF, LF] using h

theorem replaceLF_cons_ne {c : Char} (hc : c ≠ '\n') (t : List Char) :
    replaceSeq LF CRLF (c :: t) = c :: replaceSeq LF CRLF t := by
  apply replaceSeq_cons_of_not (by decide)
  intro hpre
  obtain ⟨t', ht'⟩ := isPrefixOf_iff_exists.mp hpre
  exact hc (by simpa [LF] using congrArg (List.head? ·) ht')

theorem replaceCRLF_replaceLF {u : List Char} (h : '\r' ∉ u) :
    replaceSeq CRLF LF (replaceSeq LF CRLF u) = u := by
  induction u with
  | nil => rfl
  | cons c t ih =>
    have hct : '\r' ∉ t := fun hm => h (List.mem_cons_of_mem c hm)
    have hcr : c ≠ '\r' := fun he => h (he ▸ List.mem_cons_self c t)
    by_cases hlf : c = '\n'
    · subst hlf
      rw [replaceLF_cons_lf, replaceCRLF_cons_cr, ih hct]
    · rw [replaceLF_cons_ne hlf, replaceCRLF_cons_ne hcr, ih hct]

theorem noCR_replaceLF {u : List Char} (h : '\r' ∉ u) :
    ∀ c ∈ replaceSeq LF CRLF u, c = '\r' ∨ c ∈ u := by
  induction u with
  | nil => intro c hc; rw [show replaceSeq LF CRLF [] = [] from rfl] at hc; cases hc
  | cons a t ih =>
    have hct : '\r' ∉ t := fun hm => h (List.mem_cons_of_mem a hm)
    intro c hc
    by_cases hlf : a = '\n'
    · subst hlf
      rw [replaceLF_cons_lf] at hc
      simp only [List.mem_cons] at hc
      rcases hc with hc | hc | hc
      · exact Or.inl hc
      · exact Or.inr (by simp [hc])
      · rcases ih hct c hc with h1 | h1
        · exact Or.inl h1
        · exact Or.inr (List.mem_cons_of_mem _ h1)
    · rw [replaceLF_cons_ne hlf] at hc
      simp only [List.mem_cons] at hc
      rcases hc with hc | hc
      · exact Or.inr (by simp [hc])
      · rcases ih hct c hc with h1 | h1
        · exact Or.inl h1
        · exact Or.inr (List.mem_cons_of_mem _ h1)

theorem univNL_replaceLF {u : List Char} (h : '\r' ∉ u) :
    univNL (replaceSeq LF CRLF u) = u := by
  unfold univNL
  rw [replaceCRLF_replaceLF h, replaceCR_of_noCR h]

/-! ### C2: character-class helper lemmas -/

theorem ws_char_cases {c : Char} (h : isWsChar c = true) :
    c = ' ' ∨ c = '\t' ∨ c = '\n' ∨ c = '\r' ∨ c = '\x0b' ∨ c = '\x0c' := by
  simpa [isWsChar, or_assoc] using h

theorem alnum_not_ws {c : Char} (h : c.isAlphanum = true) : isWsChar c = false := by
  cases hws : isWsChar c
  · rfl
  · rcases ws_char_cases hws with h1 | h1 | h1 | h1 | h1 | h1 <;> subst h1 <;>
      exact absurd h (by decide)

theorem alnum_ne {c : Char} (h : c.isAlphanum = true) :
    c ≠ '|' ∧ c ≠ '\n' ∧ c ≠ '\r' := by
  refine ⟨?_, ?_, ?_⟩ <;> intro he <;> subst he <;> exact absurd h (by decide)

theorem b64_char_facts {c : Char}
    (h : c.isAlphanum = true ∨ c = '+' ∨ c = '/' ∨ c = '=') :
    isWsChar c = false ∧ c ≠ '|' ∧ c ≠ '\n' ∧ c ≠ '\r' := by
  rcases h with h | h | h | h
  · exact ⟨alnum_not_ws h, (alnum_ne h).1, (alnum_ne h).2.1, (alnum_ne h).2.2⟩
  · subst h; exact ⟨by decide, by decide, by decide, by decide⟩
  · subst h; exact ⟨by decide, by decide, by decide, by decide⟩
  · subst h; exact ⟨by decide, by decide, by decide, by decide⟩

/-! ### C2: envelope and payload well-formedness -/

theorem payload_assoc (d ts a m : List Char) :
    d ++ ['|'] ++ ts ++ ['|'] ++ a ++ ['|'] ++ m =
      d ++ '|' :: (ts ++ '|' :: (a ++ '|' :: m)) := by
  simp [List.append_assoc]

theorem no_double_pipe_base {m : List Char} (hm : '|' ∉ m) :
    ¬ Occurs ['|', '|'] ('|' :: m) := by
  intro h
  rcases occurs_cons_iff.mp h with h1 | h1
  · obtain ⟨t, ht⟩ := isPrefixOf_iff_exists.mp h1
    have hm2 : m = '|' :: t := by simpa using ht
    exact hm (by rw [hm2]; simp)
  · exact hm (occurs_mem h1 '|' (by simp))

theorem no_double_pipe_tail {f rest : List Char} (hf0 : f ≠ []) (hf : '|' ∉ f)
    (hrest : ¬ Occurs ['|', '|'] rest) : ¬ Occurs ['|', '|'] ('|' :: (f ++ rest)) := by
  intro h
  rcases occurs_cons_iff.mp h with h1 | h1
  · obtain ⟨t, ht⟩ := isPrefixOf_iff_exists.mp h1
    have hfr : f ++ rest = '|' :: t := by simpa using ht
    have hh : (f ++ rest).head? = some '|' := by rw [hfr]; rfl
    rw [head?_append_left hf0] at hh
    cases f with
    | nil => exact hf0 rfl
    | cons a t' =>
      have ha : a = '|' := by simpa using hh
      exact hf (ha ▸ List.mem_cons_self a t')
  · rcases occurs_pair_append h1 with h2 | h2 | ⟨h2, h3⟩
    · exact hf (occurs_mem h2 '|' (by simp))
    · exact hrest h2
    · exact hf (List.mem_of_mem_getLast? h2)

theorem no_double_pipe_step {f rest : List Char} (hf : '|' ∉ f)
    (hrest : ¬ Occurs ['|', '|'] rest) : ¬ Occurs ['|', '|'] (f ++ rest) := by
  intro h
  rcases occurs_pair_append h with h1 | h1 | ⟨h1, h2⟩
  · exact hf (occurs_mem h1 '|' (by simp))
  · exact hrest h1
  · exact hf (List.mem_of_mem_getLast? h1)

theorem payload_no_double_pipe {d ts a m : List Char}
    (hd : '|' ∉ d) (hts0 : ts ≠ []) (hts : '|' ∉ ts)
    (ha0 : a ≠ []) (ha : '|' ∉ a) (hm : '|' ∉ m) :
    ¬ Occurs ['|', '|'] (d ++ '|' :: (ts ++ '|' :: (a ++ '|' :: m))) := by
  apply no_double_pipe_step hd
  apply no_double_pipe_tail hts0 hts
  apply no_double_pipe_tail ha0 ha
  exact no_double_pipe_base hm

theorem payload_getLast_ne {d ts a m : List Char} (hm0 : m ≠ []) (hm : '|' ∉ m) :
    (d ++ '|' :: (ts ++ '|' :: (a ++ '|' :: m))).getLast? ≠ some '|' := by
  intro h
  rw [show d ++ '|' :: (ts ++ '|' :: (a ++ '|' :: m)) =
      (d ++ '|' :: (ts ++ '|' :: (a ++ ['|']))) ++ m from by simp,
    getLast?_append_right hm0] at h
  exact hm (List.mem_of_mem_getLast? h)

theorem parse_payloadOf {d ts a m : List Char}
    (hd : '|' ∉ d) (hts : '|' ∉ ts) (ha : '|' ∉ a) (hm : '|' ∉ m) :
    parsePayload (d ++ '|' :: (ts ++ '|' :: (a ++ '|' :: m))) = some (d, ts, a, m) := by
  unfold parsePayload
  rw [splitOnSeq_single_append hd, splitOnSeq_single_append hts,
    splitOnSeq_single_append ha, splitOnSeq_single_no hm]

theorem splitEnvelope_payload_sig {P sig : List Char}
    (hnd : ¬ Occurs ['|', '|'] P)
    (hlast : P.getLast? ≠ some '|')
    (hsig : '|' ∉ sig) :
    splitEnvelope (P ++ SIGSEP ++ sig) = some (P, sig) := by
  have hocc : Occurs SIGSEP (P ++ SIGSEP ++ sig) :=
    ⟨P.length, by
      rw [List.append_assoc, drop_boundary]
      exact isPrefixOf_append_self _ _⟩
  have hsplit : splitOnSeq SIGSEP (P ++ SIGSEP ++ sig) = [P, sig] := by
    apply splitOnSeq_boundary_two (by decide)
    · intro j hj hpre
      rw [List.append_assoc,
        show SIGSEP = '|' :: '|' :: "SIG||".toList from by decide] at hpre
      exact pair_no_early hnd hlast j hj hpre
    · apply not_occurs_iff_firstOccIdx_none.mp
      rw [show SIGSEP = '|' :: "|SIG||".toList from by decide]
      exact not_occurs_of_head_not_mem hsig
  unfold splitEnvelope
  rw [if_pos (occurs_iff_containsSeq.mp hocc), hsplit]

/-! ### C2: locating the signature block in a freshly signed text file -/

theorem header_isPrefixOf_core {l : List Char} (h : HEADER.isPrefixOf l = true) :
    BEGINCORE.isPrefixOf (l.drop 2) = true := by
  obtain ⟨t, ht⟩ := isPrefixOf_iff_exists.mp h
  rw [ht, show HEADER = '\n' :: '\n' :: (BEGINCORE ++ ['\n']) from by decide]
  exact isPrefixOf_iff_exists.mpr ⟨['\n'] ++ t, by simp⟩

theorem occurs_header_core {l : List Char} (h : Occurs HEADER l) : Occurs BEGINCORE l := by
  obtain ⟨i, hi⟩ := h
  refine ⟨i + 2, ?_⟩
  rw [← List.drop_drop]
  exact header_isPrefixOf_core hi

theorem header_no_early {u z : List Char} (hcore : ¬ Occurs BEGINCORE u) :
    ∀ j < u.length, ¬ HEADER.isPrefixOf ((u ++ HEADER ++ z).drop j) = true := by
  intro j hj hpre
  rw [List.append_assoc] at hpre
  have hcpre : BEGINCORE.isPrefixOf (((u ++ (HEADER ++ z)).drop j).drop 2) = true :=
    header_isPrefixOf_core hpre
  rw [List.drop_drop] at hcpre
  by_cases hle : j + 2 ≤ u.length
  · rw [List.drop_append_of_le_length hle] at hcpre
    rcases isPrefixOf_append_cases hcpre with hl | ⟨s, hs, hsz⟩
    · exact hcore ⟨j + 2, hl⟩
    · cases hse : s with
      | nil =>
        rw [hse, List.append_nil] at hs
        exact hcore ⟨j + 2, isPrefixOf_iff_exists.mpr ⟨[], by rw [← hs, List.append_nil]⟩⟩
      | cons sc st =>
        rw [hse] at hs hsz
        obtain ⟨t', ht'⟩ := isPrefixOf_iff_exists.mp hsz
        have hh := congrArg (List.head? ·) ht'
        rw [show HEADER = '\n' :: ('\n' :: (BEGINCORE ++ ['\n'])) from by decide] at hh
        have hsc : '\n' = sc := by simpa using hh
        have hmem : sc ∈ BEGINCORE := by
          rw [hs]
          exact List.mem_append_right _ (List.mem_cons_self _ _)
        rw [← hsc] at hmem
        exact absurd hmem (by decide)
  · have hgeq : u.length ≤ j + 2 := by omega
    rw [drop_append_ge hgeq] at hcpre
    have hj2 : j + 2 - u.length = 1 := by omega
    rw [hj2] at hcpre
    obtain ⟨t', ht'⟩ := isPrefixOf_iff_exists.mp hcpre
    have hd1 : (HEADER ++ z).drop 1 = '\n' :: ((BEGINCORE ++ ['\n']) ++ z) := by
      rw [show HEADER = '\n' :: '\n' :: (BEGINCORE ++ ['\n']) from by decide]
      rfl
    rw [hd1,
      show BEGINCORE = '-' :: "----BEGIN OFFICIAL SIGNATURE-----".toList from by decide]
      at ht'
    simp at ht'

theorem firstOcc_header_signed {u z : List Char} (hcore : ¬ Occurs BEGINCORE u) :
    firstOccIdx HEADER (u ++ HEADER ++ z) = some u.length := by
  apply firstOccIdx_eq_some_of
  · rw [List.append_assoc, drop_boundary]
    exact isPrefixOf_append_self _ _
  · exact header_no_early hcore

theorem textEmbed_fresh {u env : List Char} (hcore : ¬ Occurs BEGINCORE u) :
    textEmbed u env = u ++ HEADER ++ env ++ FOOTER := by
  have hcs : containsSeq HEADER u = false := by
    cases hc : containsSeq HEADER u with
    | false => rfl
    | true => exact absurd (occurs_header_core (occurs_iff_containsSeq.mpr hc)) hcore
  unfold textEmbed
  rw [if_neg (by simp [hcs])]

theorem textExtract_signed {u env : List Char}
    (hcore : ¬ Occurs BEGINCORE u) (hnl : '\n' ∉ env)
    (hstrip : pyStrip env = env) :
    textExtract (u ++ HEADER ++ (env ++ FOOTER)) = some env := by
  have hyNone : firstOccIdx HEADER (env ++ FOOTER) = none := by
    apply not_occurs_iff_firstOccIdx_none.mp
    intro hocc
    have hp : Occurs ['\n', '\n'] (env ++ FOOTER) :=
      occurs_mono_prefix ⟨BEGINCORE ++ ['\n'], by decide⟩ hocc
    rcases occurs_pair_append hp with h1 | h1 | ⟨h1, h2⟩
    · exact hnl (occurs_mem h1 '\n' (by simp))
    · exact (not_occurs_iff_firstOccIdx_none.mpr (by decide)) h1
    · exact hnl (List.mem_of_mem_getLast? h1)
  have hsplit : splitOnSeq HEADER (u ++ HEADER ++ (env ++ FOOTER)) = [u, env ++ FOOTER] :=
    splitOnSeq_boundary_two (by decide) (header_no_early hcore) hyNone
  have hoccH : Occurs HEADER (u ++ HEADER ++ (env ++ FOOTER)) :=
    ⟨u.length, by
      rw [List.append_assoc, drop_boundary]
      exact isPrefixOf_append_self _ _⟩
  have hlast : lastPartOf HEADER (u ++ HEADER ++ (env ++ FOOTER)) = env ++ FOOTER := by
    unfold lastPartOf
    rw [hsplit]
    rfl
  have hoccF : Occurs FOOTER (env ++ FOOTER) :=
    ⟨env.length, by
      rw [drop_boundary]
      exact isPrefixOf_iff_exists.mpr ⟨[], by simp⟩⟩
  have hfo : firstOccIdx FOOTER (env ++ FOOTER) = some env.length := by
    apply firstOccIdx_eq_some_of
    · rw [drop_boundary]
      exact isPrefixOf_iff_exists.mpr ⟨[], by simp⟩
    · exact no_early_by_head (by decide) hnl
  have hheadp : headPartOf FOOTER (env ++ FOOTER) = env := by
    rw [headPartOf_of_some (by decide) hfo, List.take_left]
  unfold textExtract
  rw [if_pos (occurs_iff_containsSeq.mp hoccH), hlast,
    if_pos (occurs_iff_containsSeq.mp hoccF), hheadp, hstrip]

theorem noCR_firstMatch {l : List Char} (hcr : '\r' ∉ l) :
    firstMatchIdx headerRegexVariants l = firstOccIdx HEADER l := by
  induction l with
  | nil => decide
  | cons a t ih =>
    have hct : '\r' ∉ t := fun hm => hcr (List.mem_cons_of_mem a hm)
    have hcond : headerRegexVariants.any (fun p => p.isPrefixOf (a :: t)) =
        HEADER.isPrefixOf (a :: t) := by
      cases hH : HEADER.isPrefixOf (a :: t) with
      | true =>
        apply List.any_eq_true.mpr
        refine ⟨['\n', '\n'] ++ BEGINCORE ++ ['\n'], by simp [headerRegexVariants], ?_⟩
        rw [show (['\n', '\n'] ++ BEGINCORE ++ ['\n'] : List Char) = HEADER from by decide]
        exact hH
      | false =>
        apply List.any_eq_false.mpr
        intro p hp
        simp only [headerRegexVariants, List.mem_cons, List.not_mem_nil, or_false] at hp
        rcases hp with hp | hp | hp | hp | hp | hp | hp | hp
        · subst hp
          rw [show (['\n', '\n'] ++ BEGINCORE ++ ['\n'] : List Char) = HEADER from by decide]
          simp [hH]
        all_goals
          subst hp
          intro hpre
          exact hcr (isPrefixOf_mem hpre '\r' (by decide))
    simp only [firstMatchIdx, firstOccIdx, hcond, ih hct]

theorem strippedOriginal_signed {u z : List Char}
    (hcore : ¬ Occurs BEGINCORE u) (hcr : '\r' ∉ u ++ HEADER ++ z) :
    strippedOriginal (u ++ HEADER ++ z) = u := by
  unfold strippedOriginal
  rw [noCR_firstMatch hcr, firstOcc_header_signed hcore, List.append_assoc]
  exact List.take_left u (HEADER ++ z)

/-! ### C2: PDF branch reduction -/

theorem metaLookup_metaSet_self {m : List (List Char × List Char)} {k v : List Char} :
    metaLookup (metaSet m k v) k = some v := by
  unfold metaSet
  induction m with
  | nil => simp [metaLookup]
  | cons a t ih =>
    obtain ⟨ka, va⟩ := a
    by_cases hka : ka = k
    · rw [List.filter_cons, if_neg (by simp [hka])]
      exact ih
    · rw [List.filter_cons, if_pos (by simpa using hka)]
      simp only [List.cons_append, metaLookup]
      rw [if_neg hka]
      exact ih

/-- The report produced by the PDF branch when both checks pass. -/
def verifiedPdfReport (auth ts msg : List Char) : Report :=
  { initReport with
    mAuthority := auth
    mTimestamp := ts
    mMessage := msg
    sigCheck := true
    intCheck := true
    details := "Content Stream Match".toList
    status := "verified".toList
    message := "File is Authentic".toList }

/-- The report produced by the PDF branch when the signature passes but the
integrity comparison fails. -/
def tamperedPdfReport (auth ts msg : List Char) : Report :=
  { initReport with
    mAuthority := auth
    mTimestamp := ts
    mMessage := msg
    sigCheck := true
    intCheck := false
    details := "Content Tampered".toList
    status := "tampered".toList
    message := "Signature valid, but content changed.".toList }

theorem analyzePdf_reduce (H : List Char → List Char) (fs : List Char → Option Nat)
    (rv : Nat → List Char → List Char → Bool) (pdf : PdfDoc)
    (env raw sig d ts auth msg : List Char) (pub : Nat)
    (hex : pdfExtract pdf = some env) (hne : env ≠ [])
    (hsplit : splitEnvelope env = some (raw, sig))
    (hparse : parsePayload raw = some (d, ts, auth, msg))
    (hkey : fs (getKeyPath auth "public".toList) = some pub)
    (hsig : rv pub raw sig = true) :
    analyzePdf H fs rv pdf =
      if hashPdfLogic H pdf = d then verifiedPdfReport auth ts msg
      else tamperedPdfReport auth ts msg := by
  have hie : env.isEmpty = false := by cases env <;> simp_all
  unfold analyzePdf
  rw [hex]
  simp only [hie, Bool.false_eq_true, if_false, hsplit, hparse, hkey, hsig, if_true]
  split <;> rfl

/-! ### C2: well-formedness facts of a signing payload -/

theorem payload_facts {d ts auth msg : List Char}
    (hd : d ≠ [] ∧ ∀ c ∈ d, c.isAlphanum = true)
    (hts : ts ≠ [] ∧ ∀ c ∈ ts, c ≠ '|' ∧ c ≠ '\n' ∧ c ≠ '\r')
    (hauth : auth ≠ [] ∧ ∀ c ∈ auth, c ≠ '|' ∧ c ≠ '\n' ∧ c ≠ '\r')
    (hmsg : msg ≠ [] ∧ ∀ c ∈ msg, c ≠ '|' ∧ c ≠ '\n' ∧ c ≠ '\r') :
    ¬ Occurs ['|', '|'] (d ++ '|' :: (ts ++ '|' :: (auth ++ '|' :: msg))) ∧
      (d ++ '|' :: (ts ++ '|' :: (auth ++ '|' :: msg))).getLast? ≠ some '|' ∧
      parsePayload (d ++ '|' :: (ts ++ '|' :: (auth ++ '|' :: msg)))
        = some (d, ts, auth, msg) ∧
      '\n' ∉ d ++ '|' :: (ts ++ '|' :: (auth ++ '|' :: msg)) ∧
      '\r' ∉ d ++ '|' :: (ts ++ '|' :: (auth ++ '|' :: msg)) := by
  have hd_pipe : '|' ∉ d := fun hm => (alnum_ne (hd.2 _ hm)).1 rfl
  have hts_pipe : '|' ∉ ts := fun hm => (hts.2 _ hm).1 rfl
  have hauth_pipe : '|' ∉ auth := fun hm => (hauth.2 _ hm).1 rfl
  have hmsg_pipe : '|' ∉ msg := fun hm => (hmsg.2 _ hm).1 rfl
  refine ⟨payload_no_double_pipe hd_pipe hts.1 hts_pipe hauth.1 hauth_pipe hmsg_pipe,
    payload_getLast_ne hmsg.1 hmsg_pipe,
    parse_payloadOf hd_pipe hts_pipe hauth_pipe hmsg_pipe, ?_, ?_⟩
  · intro hm
    simp only [List.mem_append, List.mem_cons] at hm
    rcases hm with h | h | h | h | h | h | h
    · exact (alnum_ne (hd.2 _ h)).2.1 rfl
    · exact absurd h (by decide)
    · exact (hts.2 _ h).2.1 rfl
    · exact absurd h (by decide)
    · exact (hauth.2 _ h).2.1 rfl
    · exact absurd h (by decide)
    · exact (hmsg.2 _ h).2.1 rfl
  · intro hm
    simp only [List.mem_append, List.mem_cons] at hm
    rcases hm with h | h | h | h | h | h | h
    · exact (alnum_ne (hd.2 _ h)).2.2 rfl
    · exact absurd h (by decide)
    · exact (hts.2 _ h).2.2 rfl
    · exact absurd h (by decide)
    · exact (hauth.2 _ h).2.2 rfl
    · exact absurd h (by decide)
    · exact (hmsg.2 _ h).2.2 rfl

/-! ### C2: full reduction of the text branch on a freshly signed carrier -/

theorem analyzeText_fresh_signed (H : List Char → List Char) (fs : List Char → Option Nat)
    (rv : Nat → List Char → List Char → Bool)
    (u P S d ts auth msg : List Char) (pub : Nat)
    (hnodp : ¬ Occurs ['|', '|'] P) (hlastp : P.getLast? ≠ some '|')
    (hparse : parsePayload P = some (d, ts, auth, msg))
    (hP_nl : '\n' ∉ P) (hP_cr : '\r' ∉ P)
    (hPhead : ∃ c, P.head? = some c ∧ isWsChar c = false)
    (hS_pipe : '|' ∉ S) (hS_nl : '\n' ∉ S) (hS_cr : '\r' ∉ S)
    (hSlast : ∃ c, S.getLast? = some c ∧ isWsChar c = false)
    (hu : '\r' ∉ u) (hcore : ¬ Occurs BEGINCORE u)
    (hkey : fs (getKeyPath auth "public".toList) = some pub)
    (hsig : rv pub P S = true) :
    analyzeText H fs rv (textEmbed u (P ++ SIGSEP ++ S)) =
      if d ∈ [H u, H u, H (replaceSeq LF CRLF u)] then verifiedTextReport auth ts msg
      else tamperedTextReport auth ts msg := by
  have hE_nl : '\n' ∉ P ++ SIGSEP ++ S := by
    intro hm
    simp only [List.mem_append] at hm
    rcases hm with (h | h) | h
    · exact hP_nl h
    · exact absurd h (by decide)
    · exact hS_nl h
  have hE_cr : '\r' ∉ P ++ SIGSEP ++ S := by
    intro hm
    simp only [List.mem_append] at hm
    rcases hm with (h | h) | h
    · exact hP_cr h
    · exact absurd h (by decide)
    · exact hS_cr h
  have hstrip : pyStrip (P ++ SIGSEP ++ S) = P ++ SIGSEP ++ S := by
    obtain ⟨c1, hc1, hw1⟩ := hPhead
    obtain ⟨c2, hc2, hw2⟩ := hSlast
    have hPne : P ≠ [] := by
      intro he
      rw [he] at hc1
      simp at hc1
    have hSne : S ≠ [] := by
      intro he
      rw [he] at hc2
      simp at hc2
    have h1' : (P ++ SIGSEP ++ S).head? = some c1 := by
      rw [head?_append_left (fun he => hPne (List.append_eq_nil.mp he).1),
        head?_append_left hPne]
      exact hc1
    have h3' : (P ++ SIGSEP ++ S).getLast? = some c2 := by
      rw [getLast?_append_right hSne]
      exact hc2
    exact pyStrip_eq_self h1' hw1 h3' hw2
  have hne : P ++ SIGSEP ++ S ≠ [] := by
    intro he
    have := congrArg List.length he
    simp [SIGSEP] at this
  have hsplitE := splitEnvelope_payload_sig hnodp hlastp hS_pipe
  have hembed := @textEmbed_fresh u (P ++ SIGSEP ++ S) hcore
  have hassoc := List.append_assoc (u ++ HEADER) (P ++ SIGSEP ++ S) FOOTER
  have hfile_cr : '\r' ∉ u ++ HEADER ++ (P ++ SIGSEP ++ S) ++ FOOTER := by
    intro hm
    simp only [List.mem_append] at hm
    rcases hm with ((h | h) | ((h | h) | h)) | h
    · exact hu h
    · exact absurd h (by decide)
    · exact hP_cr h
    · exact absurd h (by decide)
    · exact hS_cr h
    · exact absurd h (by decide)
  have huniv : univNL (textEmbed u (P ++ SIGSEP ++ S)) =
      u ++ HEADER ++ ((P ++ SIGSEP ++ S) ++ FOOTER) := by
    rw [hembed, univNL_of_noCR hfile_cr, hassoc]
  have hex : textExtract (univNL (textEmbed u (P ++ SIGSEP ++ S))) =
      some (P ++ SIGSEP ++ S) := by
    rw [huniv]
    exact textExtract_signed hcore hE_nl hstrip
  have hred := analyzeText_reduce H fs rv (textEmbed u (P ++ SIGSEP ++ S))
    (P ++ SIGSEP ++ S) P S d ts auth msg pub hex hne hsplitE hparse hkey hsig
  have hstripo : strippedOriginal (textEmbed u (P ++ SIGSEP ++ S)) = u := by
    rw [hembed, hassoc]
    exact strippedOriginal_signed hcore (hassoc ▸ hfile_cr)
  have hlist : textHashList H (textEmbed u (P ++ SIGSEP ++ S)) =
      [H u, H u, H (replaceSeq LF CRLF u)] := by
    simp only [textHashList, hstripo, replaceCRLF_of_noCR hu]
  rw [hred, hlist]

/-- C2 counterexample input: a text carrier with MIXED line endings (one CRLF
and one lone LF). -/
def C2mixedOrig : List Char := "a\r\nb\n".toList

/-- The signed output of the text signing path on the mixed-newline carrier
(concrete library instantiations). -/
def C2mixedSigned : List Char :=
  (processSignText H0 (fun _ => some 0) (fun _ _ => "SG".toList) C2mixedOrig
    "A".toList "M".toList "T".toList).getD []

set_option maxRecDepth 100000 in
/-- C2 counterexample: verifying the file produced by signing a mixed-newline
text carrier (authority on file, signature valid) yields status "tampered",
not the claimed Verified: signing hashes the raw mixed-newline bytes, while
verification reads the file in text mode, strips the block, and compares
against the three uniform-newline digest variants only. -/
theorem C2_counterexample :
    (analyzeText H0 (fun _ => some 0) (fun _ _ _ => true) C2mixedSigned).status
        = "tampered".toList ∧
    "tampered".toList ≠ "verified".toList := by
  exact ⟨by decide, by decide⟩

set_option maxRecDepth 2000 in
/-- C2 (amended): signing followed by verification yields status "verified"
with the signed authority, timestamp and message, for (a) every text carrier
whose content has uniform line endings — all-LF, or the CRLF expansion of an
all-LF text — and does not contain the signature sentinel, and (b) every PDF
carrier whose metadata keys are unique; provided the authority's key pair is
on file, RSA-PSS verification accepts the signatures that `sign_payload`
produces, digests are nonempty and alphanumeric (as hex digests are),
signatures are nonempty base64 text, and timestamp, authority and message are
nonempty and free of `|`, LF and CR. -/
theorem C2_amended (H : List Char → List Char) (fs : List Char → Option Nat)
    (rsaSign : Nat → List Char → List Char) (rv : Nat → List Char → List Char → Bool)
    (stamp : List PdfPage → List PdfPage) (u orig auth msg ts : List Char)
    (pdf : PdfDoc) (priv pub : Nat)
    (hpriv : fs (getKeyPath auth "private".toList) = some priv)
    (hpub : fs (getKeyPath auth "public".toList) = some pub)
    (hrv : ∀ s, rv pub s (rsaSign priv s) = true)
    (hH : ∀ s, H s ≠ [] ∧ ∀ c ∈ H s, c.isAlphanum = true)
    (hsg : ∀ s, rsaSign priv s ≠ [] ∧
        ∀ c ∈ rsaSign priv s, c.isAlphanum = true ∨ c = '+' ∨ c = '/' ∨ c = '=')
    (hts : ts ≠ [] ∧ ∀ c ∈ ts, c ≠ '|' ∧ c ≠ '\n' ∧ c ≠ '\r')
    (hauth : auth ≠ [] ∧ ∀ c ∈ auth, c ≠ '|' ∧ c ≠ '\n' ∧ c ≠ '\r')
    (hmsg : msg ≠ [] ∧ ∀ c ∈ msg, c ≠ '|' ∧ c ≠ '\n' ∧ c ≠ '\r')
    (hu : '\r' ∉ u) (hcore : ¬ Occurs BEGINCORE u)
    (horig : orig = u ∨ orig = replaceSeq LF CRLF u)
    (hnd : (pdf.metadata.map Prod.fst).Nodup) :
    (∀ out, processSignText H fs rsaSign orig auth msg ts = some out →
        analyzeText H fs rv out = verifiedTextReport auth ts msg) ∧
    (∀ outP, processSignPdf H fs rsaSign stamp pdf auth msg ts = some outP →
        analyzePdf H fs rv outP = verifiedPdfReport auth ts msg) := by
  constructor
  · intro out hout
    simp only [processSignText, hpriv] at hout
    rw [Option.some.injEq] at hout
    subst hout
    have huni : univNL orig = u ∧ H orig ∈ [H u, H u, H (replaceSeq LF CRLF u)] := by
      rcases horig with rfl | rfl
      · exact ⟨univNL_of_noCR hu, by simp⟩
      · exact ⟨univNL_replaceLF hu, by simp⟩
    rw [huni.1, payload_assoc]
    obtain ⟨hnodp, hlastp, hparse, hP_nl, hP_cr⟩ := payload_facts (hH orig) hts hauth hmsg
    have hPhead : ∃ c,
        (H orig ++ '|' :: (ts ++ '|' :: (auth ++ '|' :: msg))).head? = some c ∧
          isWsChar c = false := by
      cases hdl : H orig with
      | nil => exact absurd hdl (hH orig).1
      | cons dc dt =>
        exact ⟨dc, rfl, alnum_not_ws ((hH orig).2 dc (by rw [hdl]; simp))⟩
    have hSfacts := hsg (H orig ++ '|' :: (ts ++ '|' :: (auth ++ '|' :: msg)))
    have hS_pipe : '|' ∉ rsaSign priv (H orig ++ '|' :: (ts ++ '|' :: (auth ++ '|' :: msg))) :=
      fun hm => (b64_char_facts (hSfacts.2 _ hm)).2.1 rfl
    have hS_nl : '\n' ∉ rsaSign priv (H orig ++ '|' :: (ts ++ '|' :: (auth ++ '|' :: msg))) :=
      fun hm => (b64_char_facts (hSfacts.2 _ hm)).2.2.1 rfl
    have hS_cr : '\r' ∉ rsaSign priv (H orig ++ '|' :: (ts ++ '|' :: (auth ++ '|' :: msg))) :=
      fun hm => (b64_char_facts (hSfacts.2 _ hm)).2.2.2 rfl
    have hSlast : ∃ c,
        (rsaSign priv (H orig ++ '|' :: (ts ++ '|' :: (auth ++ '|' :: msg)))).getLast?
            = some c ∧ isWsChar c = false := by
      cases hgl : (rsaSign priv (H orig ++ '|' :: (ts ++ '|' :: (auth ++ '|' :: msg)))).getLast?
        with
      | none => exact absurd (List.getLast?_eq_none_iff.mp hgl) hSfacts.1
      | some sc =>
        exact ⟨sc, rfl, (b64_char_facts (hSfacts.2 sc (List.mem_of_mem_getLast? hgl))).1⟩
    rw [analyzeText_fresh_signed H fs rv u
      (H orig ++ '|' :: (ts ++ '|' :: (auth ++ '|' :: msg)))
      (rsaSign priv (H orig ++ '|' :: (ts ++ '|' :: (auth ++ '|' :: msg))))
      (H orig) ts auth msg pub hnodp hlastp hparse hP_nl hP_cr hPhead
      hS_pipe hS_nl hS_cr hSlast hu hcore hpub (hrv _), if_pos huni.2]
  · intro outP houtP
    simp only [processSignPdf, hpriv] at houtP
    rw [Option.some.injEq] at houtP
    subst houtP
    rw [payload_assoc]
    obtain ⟨hnodp, hlastp, hparse, hP_nl, hP_cr⟩ :=
      payload_facts (hH (pdfCanonicalStream ⟨pdf.metadata, stamp pdf.pages⟩)) hts hauth hmsg
    have hSfacts := hsg (hashPdfLogic H ⟨pdf.metadata, stamp pdf.pages⟩
      ++ '|' :: (ts ++ '|' :: (auth ++ '|' :: msg)))
    have hS_pipe : '|' ∉ rsaSign priv (hashPdfLogic H ⟨pdf.metadata, stamp pdf.pages⟩
        ++ '|' :: (ts ++ '|' :: (auth ++ '|' :: msg))) :=
      fun hm => (b64_char_facts (hSfacts.2 _ hm)).2.1 rfl
    have hex : pdfExtract (pdfEmbed ⟨pdf.metadata, stamp pdf.pages⟩
        ((hashPdfLogic H ⟨pdf.metadata, stamp pdf.pages⟩
            ++ '|' :: (ts ++ '|' :: (auth ++ '|' :: msg)))
          ++ SIGSEP
          ++ rsaSign priv (hashPdfLogic H ⟨pdf.metadata, stamp pdf.pages⟩
            ++ '|' :: (ts ++ '|' :: (auth ++ '|' :: msg))))) =
        some ((hashPdfLogic H ⟨pdf.metadata, stamp pdf.pages⟩
            ++ '|' :: (ts ++ '|' :: (auth ++ '|' :: msg)))
          ++ SIGSEP
          ++ rsaSign priv (hashPdfLogic H ⟨pdf.metadata, stamp pdf.pages⟩
            ++ '|' :: (ts ++ '|' :: (auth ++ '|' :: msg)))) :=
      metaLookup_metaSet_self
    have hne : (hashPdfLogic H ⟨pdf.metadata, stamp pdf.pages⟩
            ++ '|' :: (ts ++ '|' :: (auth ++ '|' :: msg)))
          ++ SIGSEP
          ++ rsaSign priv (hashPdfLogic H ⟨pdf.metadata, stamp pdf.pages⟩
            ++ '|' :: (ts ++ '|' :: (auth ++ '|' :: msg))) ≠ [] := by
      intro he
      have := congrArg List.length he
      simp [SIGSEP] at this
    have hsplitE := splitEnvelope_payload_sig hnodp hlastp hS_pipe
    have hred := analyzePdf_reduce H fs rv
      (pdfEmbed ⟨pdf.metadata, stamp pdf.pages⟩
        ((hashPdfLogic H ⟨pdf.metadata, stamp pdf.pages⟩
            ++ '|' :: (ts ++ '|' :: (auth ++ '|' :: msg)))
          ++ SIGSEP
          ++ rsaSign priv (hashPdfLogic H ⟨pdf.metadata, stamp pdf.pages⟩
            ++ '|' :: (ts ++ '|' :: (auth ++ '|' :: msg)))))
      ((hashPdfLogic H ⟨pdf.metadata, stamp pdf.pages⟩
          ++ '|' :: (ts ++ '|' :: (auth ++ '|' :: msg)))
        ++ SIGSEP
        ++ rsaSign priv (hashPdfLogic H ⟨pdf.metadata, stamp pdf.pages⟩
          ++ '|' :: (ts ++ '|' :: (auth ++ '|' :: msg))))
      (hashPdfLogic H ⟨pdf.metadata, stamp pdf.pages⟩
        ++ '|' :: (ts ++ '|' :: (auth ++ '|' :: msg)))
      (rsaSign priv (hashPdfLogic H ⟨pdf.metadata, stamp pdf.pages⟩
        ++ '|' :: (ts ++ '|' :: (auth ++ '|' :: msg))))
      (hashPdfLogic H ⟨pdf.metadata, stamp pdf.pages⟩) ts auth msg pub
      hex hne hsplitE hparse hpub (hrv _)
    have hm : pdfMetaStream (metaSet pdf.metadata METADATA_KEY
        ((hashPdfLogic H ⟨pdf.metadata, stamp pdf.pages⟩
            ++ '|' :: (ts ++ '|' :: (auth ++ '|' :: msg)))
          ++ SIGSEP
          ++ rsaSign priv (hashPdfLogic H ⟨pdf.metadata, stamp pdf.pages⟩
            ++ '|' :: (ts ++ '|' :: (auth ++ '|' :: msg))))) =
        pdfMetaStream pdf.metadata :=
      pdfMetaStream_congr (metaSet_keys_nodup hnd) hnd
        (fun k hk => metaLookup_metaSet_ne hk)
    have hintS : pdfCanonicalStream
        (pdfEmbed ⟨pdf.metadata, stamp pdf.pages⟩
          ((hashPdfLogic H ⟨pdf.metadata, stamp pdf.pages⟩
              ++ '|' :: (ts ++ '|' :: (auth ++ '|' :: msg)))
            ++ SIGSEP
            ++ rsaSign priv (hashPdfLogic H ⟨pdf.metadata, stamp pdf.pages⟩
              ++ '|' :: (ts ++ '|' :: (auth ++ '|' :: msg))))) =
        pdfCanonicalStream ⟨pdf.metadata, stamp pdf.pages⟩ := by
      unfold pdfCanonicalStream
      simp only [pdfEmbed]
      rw [hm]
    have hint : hashPdfLogic H
        (pdfEmbed ⟨pdf.metadata, stamp pdf.pages⟩
          ((hashPdfLogic H ⟨pdf.metadata, stamp pdf.pages⟩
              ++ '|' :: (ts ++ '|' :: (auth ++ '|' :: msg)))
            ++ SIGSEP
            ++ rsaSign priv (hashPdfLogic H ⟨pdf.metadata, stamp pdf.pages⟩
              ++ '|' :: (ts ++ '|' :: (auth ++ '|' :: msg))))) =
        hashPdfLogic H ⟨pdf.metadata, stamp pdf.pages⟩ := congrArg H hintS
    rw [hred, if_pos hint]

/-- Concrete text output of the signing path for the C2 witness. -/
def C2out : List Char :=
  (processSignText (fun _ => "d".toList) (fun _ => some 0) (fun _ _ => "S".toList)
    "hello".toList "A".toList "M".toList "T".toList).getD []

/-- Concrete PDF output of the signing path for the C2 witness. -/
def C2outPdf : PdfDoc :=
  (processSignPdf (fun _ => "d".toList) (fun _ => some 0) (fun _ _ => "S".toList)
    (fun p => p) ⟨[], []⟩ "A".toList "M".toList "T".toList).getD ⟨[], []⟩

set_option maxRecDepth 100000 in
/-- Witness for C2 (amended) at a concrete all-LF text carrier "hello", an
empty PDF, authority "A", message "M", timestamp "T" and total concrete
library primitives. -/
theorem C2_amended_witness :
    analyzeText (fun _ => "d".toList) (fun _ => some 0) (fun _ _ _ => true) C2out =
      verifiedTextReport "A".toList "T".toList "M".toList ∧
    analyzePdf (fun _ => "d".toList) (fun _ => some 0) (fun _ _ _ => true) C2outPdf =
      verifiedPdfReport "A".toList "T".toList "M".toList := by
  have hHw : ∀ s : List Char, ("d".toList : List Char) ≠ [] ∧
      ∀ c ∈ ("d".toList : List Char), c.isAlphanum = true :=
    fun _ => ⟨by decide, by decide⟩
  have hsgw : ∀ s : List Char, ("S".toList : List Char) ≠ [] ∧
      ∀ c ∈ ("S".toList : List Char),
        c.isAlphanum = true ∨ c = '+' ∨ c = '/' ∨ c = '=' :=
    fun _ => ⟨by decide, by decide⟩
  have h := C2_amended (fun _ => "d".toList) (fun _ => some 0) (fun _ _ => "S".toList)
    (fun _ _ _ => true) (fun p => p) "hello".toList "hello".toList
    "A".toList "M".toList "T".toList ⟨[], []⟩ 0 0
    rfl rfl (fun _ => rfl) hHw hsgw
    ⟨by decide, by decide⟩ ⟨by decide, by decide⟩ ⟨by decide, by decide⟩
    (by decide) (not_occurs_iff_firstOccIdx_none.mpr (by decide))
    (Or.inl rfl) (by simp)
  exact ⟨h.1 C2out (by decide), h.2 C2outPdf rfl⟩

end StegoCrypt
